import Mathlib

/-!
# Verification of the srwikisync core

A shallow embedding, over `List Char`, of the core string-processing
functions of the speedrun-wiki-sync repository:

* `src/src/srwikisync/wiki.py` — section extraction, category-label
  normalization, template-parameter splitting, template-invocation
  scanning, row replacement and removal;
* `src/scripts/gen_mapping.py` — curation filtering
  (`should_exclude_wikitext`), the protected term-substitution engine
  (`apply_wikiterms`), and mapping-record generation;
* `src/src/srwikisync/wikiterms.py` — `apply_wikiterms_outside_links`;
* `src/src/srwikisync/updater.py` — the update orchestration
  (`update_section_for_mapping`, `run_update`), with the remote
  leaderboard lookup and display formatting abstracted as an oracle
  parameter, and page reading/saving recorded in the result value.

Python strings are `List Char`; all functions are fuel-based structural
recursions so the kernel can evaluate them on concrete inputs.
-/

namespace SrWikiSync

/-- Strings are modelled as lists of characters. -/
abbrev Str := List Char

/-! ## String primitives (Python `str` operations) -/

/-- Boolean prefix test, mirroring Python's `str.startswith`. -/
def leadsWith : Str → Str → Bool
  | [], _ => true
  | _ :: _, [] => false
  | p :: ps, c :: cs => p == c && leadsWith ps cs

/-- Python `str.replace(pat, rep)` for nonempty `pat`: left-to-right,
non-overlapping, replaced text is not rescanned. Fuel-based so that the
kernel can evaluate it. -/
def replGo (pat rep : Str) : Nat → Str → Str
  | _, [] => []
  | 0, s => s
  | fuel + 1, c :: rest =>
    if leadsWith pat (c :: rest) then
      rep ++ replGo pat rep fuel ((c :: rest).drop pat.length)
    else
      c :: replGo pat rep fuel rest

/-- Python `s.replace(pat, rep)` (every call site in the source passes a
nonempty `pat`; for an empty one we return `s` unchanged). -/
def strReplace (s pat rep : Str) : Str :=
  if pat = [] then s else replGo pat rep s.length s

/-- Python `pat in s` (substring containment). -/
def containsS (s pat : Str) : Bool :=
  match s with
  | [] => pat == []
  | _ :: rest => leadsWith pat s || containsS rest pat

/-- Offset of the first occurrence of `pat` in `s` (Python `str.find`
restricted to the suffix the callers pass). -/
def findSubFrom : Str → Str → Option Nat
  | [], pat => if pat = [] then some 0 else none
  | s@(_ :: rest), pat =>
    if leadsWith pat s then some 0 else (findSubFrom rest pat).map (· + 1)

/-- The whitespace class used by Python's `\s` and `str.strip()`
(ASCII range, which is the only range the wikitext domain uses). -/
def pyIsSpace (c : Char) : Bool :=
  c == ' ' || c == '\t' || c == '\n' || c == '\r' || c == '\x0b' || c == '\x0c'

/-- Length of the maximal whitespace run at the front of `s`. -/
def wsRunLen (s : Str) : Nat := (s.takeWhile pyIsSpace).length

/-- Python `str.strip()` (ASCII whitespace). -/
def stripWs (s : Str) : Str :=
  ((s.dropWhile pyIsSpace).reverse.dropWhile pyIsSpace).reverse

/-! ## `wiki.py`: category-label normalization

`normalize_category_wikitext` (the second, overriding definition in the
source, lines 68–78):
strip `{{Small|(...)}}` wrappers (non-greedy, DOTALL), remove literal
parentheses, collapse whitespace runs, trim. -/

/-- One left-to-right pass of `re.sub(r"\{\{Small\|\((.*?)\)\}\}", r"\1", s)`:
at a `{{Small|(` opener with a later `)}}`, keep the (shortest) inner text
and continue after the close; otherwise advance one character. -/
def smallSubGo : Nat → Str → Str
  | _, [] => []
  | 0, s => s
  | fuel + 1, c :: rest =>
    if leadsWith "\x7b\x7bSmall|(".toList (c :: rest) then
      match findSubFrom ((c :: rest).drop 9) ")\x7d\x7d".toList with
      | some d =>
          ((c :: rest).drop 9).take d ++ smallSubGo fuel ((c :: rest).drop (9 + d + 3))
      | none => c :: smallSubGo fuel rest
    else c :: smallSubGo fuel rest

/-- One pass of `re.sub(r"\s+", " ", s)`: each maximal whitespace run
becomes a single space. -/
def collapseWsGo : Nat → Str → Str
  | _, [] => []
  | 0, s => s
  | fuel + 1, c :: rest =>
    if pyIsSpace c then ' ' :: collapseWsGo fuel (rest.dropWhile pyIsSpace)
    else c :: collapseWsGo fuel rest

/-- `wiki.normalize_category_wikitext` (lines 68–78 of `wiki.py`). -/
def normalize_category_wikitext (s : Str) : Str :=
  let s1 := smallSubGo s.length s
  let s2 := s1.filter (fun c => !(c == '(' || c == ')'))
  stripWs (collapseWsGo s2.length s2)

/-! ## `wiki.py`: template-parameter splitting -/

/-- `wiki._split_template_params`: split on top-level `|`, tracking
nesting depth for `[[...]]` and `{{...}}`. The accumulator `buf` is kept
reversed. -/
def splitParamsGo : Nat → Str → Nat → Nat → Str → List Str
  | _, [], _, _, buf => [buf.reverse]
  | 0, _, _, _, buf => [buf.reverse]
  | fuel + 1, s@(c :: rest), dtpl, dlink, buf =>
    if leadsWith "[[".toList s then
      splitParamsGo fuel (s.drop 2) dtpl (dlink + 1) ('[' :: '[' :: buf)
    else if leadsWith "]]".toList s && decide (0 < dlink) then
      splitParamsGo fuel (s.drop 2) dtpl (dlink - 1) (']' :: ']' :: buf)
    else if leadsWith "\x7b\x7b".toList s then
      splitParamsGo fuel (s.drop 2) (dtpl + 1) dlink ('\x7b' :: '\x7b' :: buf)
    else if leadsWith "\x7d\x7d".toList s && decide (0 < dtpl) then
      splitParamsGo fuel (s.drop 2) (dtpl - 1) dlink ('\x7d' :: '\x7d' :: buf)
    else if c == '|' && dtpl == 0 && dlink == 0 then
      buf.reverse :: splitParamsGo fuel rest dtpl dlink []
    else
      splitParamsGo fuel rest dtpl dlink (c :: buf)

/-- `wiki._split_template_params(body)`. -/
def splitParams (s : Str) : List Str := splitParamsGo s.length s 0 0 []

/-! ## `wiki.py`: template-invocation scanning -/

/-- The opener scanned for by `_iter_template_invocations` at template
name `Speedrun Record`. -/
def srNeedle : Str := "\x7b\x7bSpeedrun Record|".toList

/-- The inner loop of `wiki._iter_template_invocations`: advance a brace
depth counter over `{{` / `}}` pairs until it first returns to zero,
returning the number of characters consumed; `none` when the braces never
return to depth zero before the end of the string. -/
def scanClose : Nat → Str → Int → Option Nat
  | _, [], _ => none
  | 0, _, _ => none
  | fuel + 1, s@(_ :: _), depth =>
    if leadsWith "\x7b\x7b".toList s then (scanClose fuel (s.drop 2) (depth + 1)).map (· + 2)
    else if leadsWith "\x7d\x7d".toList s then
      if depth - 1 = 0 then some 2
      else (scanClose fuel (s.drop 2) (depth - 1)).map (· + 2)
    else (scanClose fuel s.tail depth).map (· + 1)

/-- The outer loop of `wiki._iter_template_invocations`: find the next
`{{Speedrun Record|` opener, close it by brace depth, yield the span and
continue after it. An opener that never closes yields nothing and ends
the scan (the `while…else: return` in the source). -/
def iterGo (text : Str) : Nat → Nat → List (Nat × Nat)
  | 0, _ => []
  | fuel + 1, i =>
    match findSubFrom (text.drop i) srNeedle with
    | none => []
    | some off =>
      let start := i + off
      match scanClose (text.length - start) (text.drop start) 0 with
      | none => []
      | some k => (start, start + k) :: iterGo text fuel (start + k)

/-- `wiki._iter_template_invocations(text, "Speedrun Record")` as the list
of `(start, end)` spans it yields. -/
def iterInvocations (text : Str) : List (Nat × Nat) := iterGo text (text.length + 1) 0

/-! ## `wiki.py`: row replacement and removal -/

/-- `full = text[start:end]` for a span. -/
def rowFull (body : Str) (se : Nat × Nat) : Str := (body.drop se.1).take (se.2 - se.1)

/-- `inner = full[len("{{Speedrun Record|"):-2]`. -/
def rowInner (full : Str) : Str := ((full.drop 18).dropLast).dropLast

/-- The fresh 5-parameter invocation built by `replace_speedrun_record_row`,
reusing the existing first parameter verbatim. -/
def buildRow (cat runner time date path : Str) : Str :=
  "\x7b\x7bSpeedrun Record|".toList ++ cat ++ '|' :: runner ++ '|' :: time ++
    '|' :: date ++ '|' :: path ++ "\x7d\x7d".toList

/-- Whether a span's invocation matches: its params are nonempty and the
first one normalizes to `expected`. -/
def rowMatches (body expected : Str) (se : Nat × Nat) : Bool :=
  match splitParams (rowInner (rowFull body se)) with
  | [] => false
  | cat :: _ => normalize_category_wikitext cat == expected

/-- The loop body of `wiki.replace_speedrun_record_row` over the spans
yielded by the invocation scanner; `Except.error` models raising
`MissingWikiRowError(label)`. -/
def replaceRowGo (body expected runner time date path label : Str) :
    List (Nat × Nat) → Except Str Str
  | [] => Except.error label
  | se :: rest =>
    match splitParams (rowInner (rowFull body se)) with
    | [] => replaceRowGo body expected runner time date path label rest
    | cat :: _ =>
      if normalize_category_wikitext cat = expected then
        Except.ok (body.take se.1 ++ buildRow cat runner time date path ++ body.drop se.2)
      else replaceRowGo body expected runner time date path label rest

/-- `wiki.replace_speedrun_record_row`. The error value is the
`missing_category_wikitext` carried by `MissingWikiRowError`. -/
def replace_speedrun_record_row (body label runner time date path : Str) : Except Str Str :=
  replaceRowGo body (normalize_category_wikitext label) runner time date path label
    (iterInvocations body)

/-- The loop body of `wiki.remove_speedrun_record_row`. -/
def removeRowGo (body expected : Str) : List (Nat × Nat) → Str
  | [] => body
  | se :: rest =>
    match splitParams (rowInner (rowFull body se)) with
    | [] => removeRowGo body expected rest
    | cat :: _ =>
      if normalize_category_wikitext cat = expected then
        let before := body.take se.1
        let after := body.drop se.2
        if leadsWith ['\n'] after then before ++ after.tail
        else if before.getLast? = some '\n' then before.dropLast ++ after
        else before ++ after
      else removeRowGo body expected rest

/-- `wiki.remove_speedrun_record_row`. -/
def remove_speedrun_record_row (body label : Str) : Str :=
  removeRowGo body (normalize_category_wikitext label) (iterInvocations body)

/-! ## `wiki.py`: section extraction

`extract_section` matches the anchored pattern
`(.*?<section\s+begin="N"\s*/>\s*)(.*?)(\s*<section\s+end="N"\s*/>.*)`
with DOTALL. The deterministic reading of the backtracking engine:
the prefix group ends after the first begin tag plus the maximal
whitespace run following it; the suffix group starts at the first end
tag found from there, minus the maximal whitespace run immediately
preceding that tag (clamped to the prefix end). -/

/-- Match `<section\s+(kind)="name"\s*/>` at the front of `s`, returning
the matched length. -/
def matchTagAt (kind name : Str) (s : Str) : Option Nat :=
  if leadsWith "<section".toList s then
    let s1 := s.drop 8
    let w1 := wsRunLen s1
    if w1 = 0 then none
    else
      let s2 := s1.drop w1
      let pat := kind ++ '=' :: '"' :: (name ++ ['"'])
      if leadsWith pat s2 then
        let s3 := s2.drop pat.length
        let w2 := wsRunLen s3
        if leadsWith "/>".toList (s3.drop w2) then some (8 + w1 + pat.length + w2 + 2)
        else none
      else none
  else none

/-- First offset (and matched length) at which a section tag matches. -/
def firstTagFrom (kind name : Str) : Nat → Str → Option (Nat × Nat)
  | _, [] => none
  | 0, _ => none
  | fuel + 1, s@(_ :: _) =>
    match matchTagAt kind name s with
    | some tl => some (0, tl)
    | none => (firstTagFrom kind name fuel s.tail).map (fun p => (p.1 + 1, p.2))

/-- `wiki.extract_section(text, name)`: `none` models raising
`RuntimeError("Section not found")`. -/
def extract_section (text name : Str) : Option (Str × Str × Str) :=
  match firstTagFrom "begin".toList name (text.length + 1) text with
  | none => none
  | some bp =>
    let pe := bp.1 + bp.2 + wsRunLen (text.drop (bp.1 + bp.2))
    match firstTagFrom "end".toList name (text.length + 1) (text.drop pe) with
    | none => none
    | some qp =>
      let q := pe + qp.1
      let p := max pe (q - wsRunLen (text.take q).reverse)
      some (text.take pe, (text.drop pe).take (p - pe), text.drop p)

/-! ## `gen_mapping.py`: curation filter -/

/-- ASCII lowercasing (Python `str.lower` on the ASCII range used by the
wikitext domain). -/
def lowerStr (s : Str) : Str := s.map Char.toLower

/-- `gen_mapping.should_exclude_wikitext`. -/
def should_exclude_wikitext (wiki_cat : Str) (deny allow : List Str) : Bool :=
  if deny = [] then false
  else
    let lc := lowerStr wiki_cat
    let matched_denies := deny.filter (fun d => !(d == []) && containsS lc d)
    if matched_denies = [] then false
    else
      let matched_allows :=
        if allow = [] then [] else allow.filter (fun a => !(a == []) && containsS lc a)
      if matched_allows = [] then true
      else matched_denies.any (fun d => matched_allows.all (fun a => !(containsS a d)))

/-! ## `gen_mapping.py`: placeholder tokens

`_TOKEN_PREFIX = "\u0007WIKITERM_TOKEN_"`, `_TOKEN_SUFFIX = "\u0007"`;
protection tokens are `\u0007WIKITERM_TOKEN_PROT_i\u0007` and insertion
tokens `\u0007WIKITERM_TOKEN_INS_j\u0007`. -/

/-- Decimal digit character (used only for arguments below 10). -/
def digitChar : Nat → Char
  | 0 => '0' | 1 => '1' | 2 => '2' | 3 => '3' | 4 => '4'
  | 5 => '5' | 6 => '6' | 7 => '7' | 8 => '8' | _ => '9'

/-- Decimal rendering of a natural number (Python `f"{n}"`), fuel-based. -/
def natCharsGo : Nat → Nat → Str
  | 0, _ => []
  | fuel + 1, n =>
    if n < 10 then [digitChar n]
    else natCharsGo fuel (n / 10) ++ [digitChar (n % 10)]

/-- Decimal rendering of a natural number. -/
def natChars (n : Nat) : Str := natCharsGo (n + 1) n

/-- Inner text of the `i`-th protection placeholder. -/
def protInner (i : Nat) : Str := "WIKITERM_TOKEN_PROT_".toList ++ natChars i

/-- Inner text of the `j`-th insertion placeholder. -/
def insInner (j : Nat) : Str := "WIKITERM_TOKEN_INS_".toList ++ natChars j

/-- A full placeholder token: the inner text wrapped in `\u0007`. -/
def tokStr (x : Str) : Str := '\x07' :: x ++ ['\x07']

/-- The characters that can occur in a placeholder's inner text. -/
def tokChar (c : Char) : Bool := "WIKTERM_ONPS0123456789I".toList.contains c

/-! ## `gen_mapping.py`: protected-segment scanning

`_WIKI_PROTECTED_RE = (\[\[.*?\]\]|\{\{.*?\}\})` with DOTALL, scanned
left to right, non-greedy, non-overlapping. The scanner below returns the
text as a leading plain piece followed by (protected span, plain piece)
pairs, which concatenate back to the input. -/

/-- Alternating decomposition: a leading plain piece, then
(separator, plain piece) pairs. -/
abbrev AltStruct := Str × List (Str × Str)

/-- Render the pair list of an `AltStruct`, wrapping each separator in
`\u0007` delimiters. -/
def structTail : List (Str × Str) → Str
  | [] => []
  | (y, q) :: rest => '\x07' :: y ++ '\x07' :: q ++ structTail rest

/-- Render an `AltStruct` with `\u0007`-delimited separators (the shape of
the working text inside `apply_wikiterms`). -/
def structStr (s : AltStruct) : Str := s.1 ++ structTail s.2

/-- Render the pair list of an `AltStruct` with the separators inline
(the shape of the original text: separators are the protected spans). -/
def segTail : List (Str × Str) → Str
  | [] => []
  | (y, q) :: rest => y ++ q ++ segTail rest

/-- Render an `AltStruct` with inline separators. -/
def segStr (s : AltStruct) : Str := s.1 ++ segTail s.2

/-- The `_WIKI_PROTECTED_RE` scanner: at `[[` (resp. `{{`) with a later
`]]` (resp. `}}`), the shortest such span is protected; otherwise advance
one character. Returns the decomposition into plain text and protected
spans. -/
def protScanGo : Nat → Str → Str → AltStruct
  | _, [], buf => (buf.reverse, [])
  | 0, s, buf => (buf.reverse ++ s, [])
  | fuel + 1, s@(c :: rest), buf =>
    if leadsWith "[[".toList s then
      match findSubFrom (s.drop 2) "]]".toList with
      | some d =>
        let out := protScanGo fuel (s.drop (2 + d + 2)) []
        (buf.reverse, (s.take (2 + d + 2), out.1) :: out.2)
      | none => protScanGo fuel rest (c :: buf)
    else if leadsWith "\x7b\x7b".toList s then
      match findSubFrom (s.drop 2) "\x7d\x7d".toList with
      | some d =>
        let out := protScanGo fuel (s.drop (2 + d + 2)) []
        (buf.reverse, (s.take (2 + d + 2), out.1) :: out.2)
      | none => protScanGo fuel rest (c :: buf)
    else protScanGo fuel rest (c :: buf)

/-- Decompose `text` into plain pieces and protected `[[...]]`/`{{...}}`
spans. -/
def protectSegs (text : Str) : AltStruct := protScanGo text.length text []

/-- The protected spans of `text`, in scan order (the `protected` list
built by `_protect_wiki_segments`). -/
def protectedSpans (text : Str) : List Str := (protectSegs text).2.map Prod.fst

/-- Replace the `i`-th, `i+1`-th, … separators by protection-placeholder
inner texts. -/
def tokenizePairs : Nat → List (Str × Str) → List (Str × Str)
  | _, [] => []
  | i, (_, q) :: rest => (protInner i, q) :: tokenizePairs (i + 1) rest

/-- `gen_mapping._protect_wiki_segments`: the working text with each
protected span replaced by its token, plus the list of protected spans. -/
def protect_wiki_segments (text : Str) : Str × List Str :=
  (structStr ((protectSegs text).1, tokenizePairs 0 (protectSegs text).2),
    protectedSpans text)

/-! ## `gen_mapping.py`: `apply_wikiterms` -/

/-- The substitution loop of `apply_wikiterms`: for each `(term, repl)` in
order, if the nonempty `term` occurs in the working text, replace all its
occurrences by a fresh insertion token and record `repl`. -/
def termLoop : List (Str × Str) → Str → List Str → Str × List Str
  | [], working, inserted => (working, inserted)
  | (term, repl) :: rest, working, inserted =>
    if term ≠ [] ∧ containsS working term = true then
      termLoop rest (strReplace working term (tokStr (insInner inserted.length)))
        (inserted ++ [repl])
    else termLoop rest working inserted

/-- The resolution loop of `apply_wikiterms`: replace each insertion token
by its recorded replacement text, in index order. -/
def resolveLoop : Nat → List Str → Str → Str
  | _, [], working => working
  | i, repl :: rest, working => resolveLoop (i + 1) rest (strReplace working (tokStr (insInner i)) repl)

/-- The restore loop of `apply_wikiterms` (`_restore_wiki_segments`):
replace each protection token by its original span, in index order. -/
def restoreLoop : Nat → List Str → Str → Str
  | _, [], working => working
  | i, seg :: rest, working => restoreLoop (i + 1) rest (strReplace working (tokStr (protInner i)) seg)

/-- `gen_mapping.apply_wikiterms(text, terms)`. -/
def apply_wikiterms (text : Str) (terms : List (Str × Str)) : Str :=
  if text = [] ∨ terms = [] then text
  else
    let wp := protect_wiki_segments text
    let wi := termLoop terms wp.1 []
    restoreLoop 0 wp.2 (resolveLoop 0 wi.2 wi.1)

/-- Interleave plain pieces with spans:
`out₀ ++ span₀ ++ out₁ ++ span₁ ++ …`. -/
def interleave : List Str → List Str → Str
  | [], _ => []
  | p :: ps, [] => p ++ interleave ps []
  | p :: ps, sp :: sps => p ++ sp ++ interleave ps sps

/-! ## `wikiterms.py`: `apply_wikiterms_outside_links` -/

/-- The `LINK_RE = \[\[.*?\]\]` scanner of `wikiterms.py`: decompose the
text into outside pieces and link spans. -/
def linkScanGo : Nat → Str → Str → AltStruct
  | _, [], buf => (buf.reverse, [])
  | 0, s, buf => (buf.reverse ++ s, [])
  | fuel + 1, s@(c :: rest), buf =>
    if leadsWith "[[".toList s then
      match findSubFrom (s.drop 2) "]]".toList with
      | some d =>
        let out := linkScanGo fuel (s.drop (2 + d + 2)) []
        (buf.reverse, (s.take (2 + d + 2), out.1) :: out.2)
      | none => linkScanGo fuel rest (c :: buf)
    else linkScanGo fuel rest (c :: buf)

/-- Decompose `text` into outside pieces and `[[...]]` link spans. -/
def linkSegs (text : Str) : AltStruct := linkScanGo text.length text []

/-- The link spans of `text`, in scan order. -/
def linkSpans (text : Str) : List Str := (linkSegs text).2.map Prod.fst

/-- Insert a key into a length-descending sorted list, before the first
key of smaller-or-equal length (stable descending sort by length, the
behaviour of Python's stable `sorted(keys, key=len, reverse=True)`). -/
def insertKeyByLen (x : Str) : List Str → List Str
  | [] => [x]
  | y :: rest => if y.length ≤ x.length then x :: y :: rest else y :: insertKeyByLen x rest

/-- Stable descending sort of substitution keys by length. -/
def sortKeysDesc : List Str → List Str
  | [] => []
  | x :: rest => insertKeyByLen x (sortKeysDesc rest)

/-- Dictionary lookup (`terms[k]`; the callers only look up present keys). -/
def lookupD (d : List (Str × Str)) (k : Str) : Str :=
  match d.find? (fun p => p.1 == k) with
  | some p => p.2
  | none => []

/-- Apply all substitutions, longest key first, to one outside segment. -/
def subSegment (d : List (Str × Str)) (seg : Str) : Str :=
  (sortKeysDesc (d.map Prod.fst)).foldl (fun s k => strReplace s k (lookupD d k)) seg

/-- `wikiterms.apply_wikiterms_outside_links(text, terms)`: substitute
only in the pieces outside `[[...]]` spans. (The source's guards mean an
empty pattern is never substituted; `strReplace` encodes that directly.) -/
def apply_wikiterms_outside_links (text : Str) (d : List (Str × Str)) : Str :=
  if text = [] ∨ d = [] then text
  else
    let sg := linkSegs text
    subSegment d sg.1 ++ (sg.2.map (fun lq => lq.1 ++ subSegment d lq.2)).flatten

/-! ## `gen_mapping.py`: catalog model and mapping generation

`get_game_categories` performs an HTTP fetch; the generator below takes
the fetched catalog as a parameter and embeds everything downstream of
the fetch. -/

/-- A leaderboard variable (`variables.data` entry): id, whether it is a
subcategory, and its `(value_id, label)` pairs in JSON order. -/
structure SrVar where
  vid : Str
  isSub : Bool
  values : List (Str × Str)
deriving DecidableEq, Repr

/-- A catalog category. -/
structure Category where
  cid : Str
  name : Str
  ctype : Str
  misc : Bool
  cvars : List SrVar
deriving DecidableEq, Repr

/-- A generated mapping record (the fields of the emitted JSON object that
the composite key and the updater use). -/
structure MappingRecord where
  sectionId : Str
  wiki : Str
  game : Str
  catId : Str
  vars : List (Str × Str)
  catName : Str
  misc : Bool
deriving DecidableEq, Repr

/-- Lexicographic strict comparison of strings by character code
(Python `<` on `str`). -/
def strLt : Str → Str → Bool
  | [], [] => false
  | [], _ :: _ => true
  | _ :: _, [] => false
  | a :: as_, b :: bs => if a.toNat < b.toNat then true
      else if a == b then strLt as_ bs else false

/-- Stable ascending insertion relative to a strict comparison: insert
before the first strictly greater element. -/
def insertAscBy (lt : α → α → Bool) (x : α) : List α → List α
  | [] => [x]
  | y :: rest => if lt x y then x :: y :: rest else y :: insertAscBy lt x rest

/-- Stable ascending insertion sort (the behaviour of Python's stable
`list.sort`). -/
def sortAscBy (lt : α → α → Bool) : List α → List α
  | [] => []
  | x :: rest => insertAscBy lt x (sortAscBy lt rest)

/-- Lexicographic strict comparison of `(key, value)` pairs (Python `<`
on 2-tuples of strings). -/
def pairLt (a b : Str × Str) : Bool :=
  strLt a.1 b.1 || (a.1 == b.1 && strLt a.2 b.2)

/-- Python dict assignment `d[k] = v`: update in place if the key exists,
else append. -/
def dictInsert (d : List (Str × Str)) (k v : Str) : List (Str × Str) :=
  if d.any (fun p => p.1 == k) then d.map (fun p => if p.1 == k then (k, v) else p)
  else d ++ [(k, v)]

/-- `gen_mapping.iter_value_labels`: the values with a nonempty label,
sorted ascending by label. -/
def iter_value_labels (v : SrVar) : List (Str × Str) :=
  sortAscBy (fun a b => strLt a.2 b.2) (v.values.filter (fun p => !(p.2 == [])))

/-- `gen_mapping.extract_subcategory_variables`. -/
def extract_subcategory_variables (c : Category) : List SrVar :=
  c.cvars.filter (fun v => v.isSub)

/-- `itertools.product`, leftmost list varying slowest. -/
def productL : List (List α) → List (List α)
  | [] => [[]]
  | vs :: rest => vs.flatMap (fun v => (productL rest).map (fun combo => v :: combo))

/-- Build one assignment from the chosen value of each variable:
the `variables` dict (id → value id) and the `(id, label)` list. -/
def buildAssign (ids : List Str) (combo : List (Str × Str)) :
    List (Str × Str) × List (Str × Str) :=
  (ids.zip combo).foldl
    (fun acc p => (dictInsert acc.1 p.1 p.2.1, acc.2 ++ [(p.1, p.2.2)])) ([], [])

/-- `gen_mapping.cartesian_var_assignments`: all combinations of
subcategory-variable assignments, as `(variables, labels)` pairs. -/
def cartesian_var_assignments (sub_vars : List SrVar) :
    List (List (Str × Str) × List (Str × Str)) :=
  let var_vals := sub_vars.filterMap (fun v =>
    if v.vid ≠ [] ∧ iter_value_labels v ≠ [] then some (v.vid, iter_value_labels v) else none)
  if var_vals = [] then [([], [])]
  else (productL (var_vals.map Prod.snd)).map (buildAssign (var_vals.map Prod.fst))

/-- `gen_mapping.format_wiki_category_wikitext`. -/
def format_wiki_category_wikitext (cat_name : Str) (sub_labels : List (Str × Str))
    (terms : List (Str × Str)) (label_vars_keep label_vars_drop : List Str) : Str :=
  let base := apply_wikiterms cat_name terms
  let keep := label_vars_keep.filter (fun v => !(v == []))
  let drop := label_vars_drop.filter (fun v => !(v == []))
  let filtered := sub_labels.filterMap (fun p =>
    if keep ≠ [] ∧ p.1 ∉ keep then none
    else if drop ≠ [] ∧ p.1 ∈ drop then none
    else some p.2)
  if filtered = [] then base
  else
    base ++ " \x7b\x7bSmall|(".toList ++
      (List.intercalate " / ".toList (filtered.map (fun l => apply_wikiterms l terms))) ++
      ")\x7d\x7d".toList

/-- `gen_mapping.pick_categories_by_names`: `none` models the fatal
`RuntimeError` on a missing or ambiguous category name. -/
def pick_categories_by_names (all_cats : List Category) (wanted : List Str) :
    Option (List Category) :=
  wanted.foldr (fun nm acc =>
    match acc with
    | none => none
    | some picked =>
      match all_cats.filter (fun c => c.name == nm) with
      | [c] => some (c :: picked)
      | _ => none) (some [])

/-- The composite de-duplication key of one mapping record:
`(section, wiki_category_wikitext, game, category_id, sorted(variables))`. -/
def dedupeKey (sect wiki game catId : Str) (vars : List (Str × Str)) :
    Str × Str × Str × Str × List (Str × Str) :=
  (sect, wiki, game, catId, sortAscBy pairLt vars)

/-- `recordKey` of an emitted record. -/
def recordKey (r : MappingRecord) : Str × Str × Str × Str × List (Str × Str) :=
  dedupeKey r.sectionId r.wiki r.game r.catId r.vars

/-- One candidate record of the generation loop, before curation
exclusion and de-duplication. -/
def candidateRecord (sect game_slug : Str) (terms : List (Str × Str))
    (label_vars_keep label_vars_drop query_vars_keep query_vars_drop : List Str)
    (c : Category) (vl : List (Str × Str) × List (Str × Str)) : MappingRecord :=
  let vd1 := if query_vars_keep ≠ [] then vl.1.filter (fun p => p.1 ∈ query_vars_keep) else vl.1
  let vd2 := if query_vars_drop ≠ [] then vd1.filter (fun p => p.1 ∉ query_vars_drop) else vd1
  { sectionId := sect
    wiki := format_wiki_category_wikitext c.name vl.2 terms label_vars_keep label_vars_drop
    game := game_slug
    catId := c.cid
    vars := vd2
    catName := c.name
    misc := c.misc }

/-- The candidate stream of `generate_per_game_entries`: every chosen
category crossed with every subcategory-variable assignment. -/
def candidateStream (sect game_slug : Str) (terms : List (Str × Str))
    (label_vars_keep label_vars_drop query_vars_keep query_vars_drop : List Str)
    (chosen : List Category) : List MappingRecord :=
  chosen.flatMap (fun c =>
    (cartesian_var_assignments (extract_subcategory_variables c)).map
      (candidateRecord sect game_slug terms label_vars_keep label_vars_drop
        query_vars_keep query_vars_drop c))

/-- The exclusion + de-duplication fold of `generate_per_game_entries`. -/
def dedupeLoop (deny allow : List Str) :
    List MappingRecord → List MappingRecord →
      List (Str × Str × Str × Str × List (Str × Str)) → List MappingRecord
  | [], out, _ => out
  | r :: rest, out, seen =>
    if should_exclude_wikitext r.wiki deny allow then dedupeLoop deny allow rest out seen
    else if recordKey r ∈ seen then dedupeLoop deny allow rest out seen
    else dedupeLoop deny allow rest (out ++ [r]) (seen ++ [recordKey r])

/-- `gen_mapping.generate_per_game_entries`, downstream of the catalog
fetch: filter to per-game (and optionally non-misc) categories, choose the
requested ones, build every variable combination, filter the query
variables, build the label, apply curation exclusion, de-duplicate on the
composite key keeping the first, and sort by label. `none` models the
fatal category-selection error. -/
def generate_per_game_entries (sect game_slug : Str) (include_misc : Bool)
    (wanted_category_names : List Str) (all_categories : Bool) (cats : List Category)
    (terms : List (Str × Str)) (deny allow : List Str)
    (label_vars_keep label_vars_drop query_vars_keep query_vars_drop : List Str) :
    Option (List MappingRecord) :=
  let cats1 := cats.filter (fun c => c.ctype == "per-game".toList)
  let cats2 := if include_misc then cats1 else cats1.filter (fun c => !c.misc)
  let chosen? := if all_categories then some cats2
    else pick_categories_by_names cats2 wanted_category_names
  match chosen? with
  | none => none
  | some chosen =>
    let cands := candidateStream sect game_slug terms label_vars_keep label_vars_drop
      query_vars_keep query_vars_drop chosen
    some (sortAscBy (fun a b => strLt a.wiki b.wiki) (dedupeLoop deny allow cands [] []))

/-! ## `updater.py`: orchestration

The remote leaderboard lookup (`get_leaderboard_top1`) plus the display
formatting of `formatter.py` (runner name, time, date, run path) are
abstracted as an oracle `fetch : MappingRecord → Option RowVals`: the
claims settled here concern only the control flow around those
collaborators. Page reading/saving (`pywikibot`) is recorded in the
returned `RunOutcome`. -/

/-- The display strings computed for one fetched top run. -/
structure RowVals where
  runner : Str
  time : Str
  date : Str
  path : Str
deriving DecidableEq, Repr

/-- The entry-processing loop of `updater.update_section_for_mapping`:
an `Except.error` is a propagating `MissingWikiRowError`. -/
def processEntries (section_name : Str) (fetch : MappingRecord → Option RowVals)
    (no_blanks : Bool) : List MappingRecord → Str → Except Str Str
  | [], body => Except.ok body
  | e :: rest, body =>
    if e.sectionId ≠ section_name then processEntries section_name fetch no_blanks rest body
    else
      match fetch e with
      | none =>
        processEntries section_name fetch no_blanks rest
          (if no_blanks then remove_speedrun_record_row body e.wiki else body)
      | some rv =>
        match replace_speedrun_record_row body e.wiki rv.runner rv.time rv.date rv.path with
        | Except.error lbl => Except.error lbl
        | Except.ok b2 => processEntries section_name fetch no_blanks rest b2

/-- Errors escaping `update_section_for_mapping`. -/
inductive UpdErr where
  | sectionMissing
  | missingRow (label : Str)
deriving DecidableEq, Repr

/-- `updater.update_section_for_mapping`: extract the named section,
process every mapping entry for it, reassemble, and report whether the
text changed. -/
def update_section_for_mapping (page_text section_name : Str)
    (entries : List MappingRecord) (fetch : MappingRecord → Option RowVals)
    (no_blanks : Bool) : Except UpdErr (Str × Bool) :=
  match extract_section page_text section_name with
  | none => Except.error UpdErr.sectionMissing
  | some pbs =>
    match processEntries section_name fetch no_blanks entries pbs.2.1 with
    | Except.error lbl => Except.error (UpdErr.missingRow lbl)
    | Except.ok newBody =>
      let newText := pbs.1 ++ newBody ++ pbs.2.2
      Except.ok (newText, newText ≠ page_text)

/-- One scaffolded `N/A` row. -/
def scaffoldRow (cat : Str) : Str :=
  "\x7b\x7bSpeedrun Record|".toList ++ cat ++ "|N/A|N/A|N/A|N/A\x7d\x7d".toList

/-- `wiki.scaffold_rows`: one `N/A` row per mapping entry of the section,
newline-joined, with a trailing newline. -/
def scaffold_rows (entries : List MappingRecord) (section_name : Str) : Str :=
  List.intercalate ['\n']
    ((entries.filter (fun e => e.sectionId == section_name)).map (fun e => scaffoldRow e.wiki))
    ++ ['\n']

/-- The literal begin tag used by `updater.build_section_block`. -/
def beginTagLit (name : Str) : Str :=
  "<section begin=\"".toList ++ name ++ "\"/>".toList

/-- The literal end tag used by `updater.build_section_block`. -/
def endTagLit (name : Str) : Str :=
  "<section end=\"".toList ++ name ++ "\"/>".toList

/-- Python `str.rfind`: offset of the last occurrence. -/
def rfindSub (s pat : Str) : Option Nat :=
  ((List.range (s.length + 1)).filter (fun i => leadsWith pat (s.drop i))).getLast?

/-- `updater.build_section_block`. -/
def build_section_block (full_text name : Str) : Option Str :=
  match extract_section full_text name with
  | none => none
  | some pbs =>
    match rfindSub pbs.1 (beginTagLit name) with
    | none => some (beginTagLit name ++ pbs.2.1 ++ endTagLit name)
    | some bi =>
      match findSubFrom pbs.2.2 (endTagLit name) with
      | none => some (pbs.1.drop bi ++ pbs.2.1 ++ pbs.2.2)
      | some ei =>
        some (pbs.1.drop bi ++ pbs.2.1 ++ pbs.2.2.take (ei + (endTagLit name).length))

/-- The observable outcome of one `run_update` call: the exit code, the
text saved to the page store (if any), the missing-row abort report
(missing label and the scaffold text printed), and the section block
printed in emit mode. -/
structure RunOutcome where
  code : Nat
  saved : Option Str
  abortMissing : Option (Str × Str)
  emitted : Option Str
deriving DecidableEq, Repr

/-- `updater.run_update`, downstream of config/mapping loading and the
page read. `none` models an uncaught exception (absent section). The page
store's save is modelled as succeeding; a rejected save re-raises in the
source after the write attempt, which does not affect the claims below. -/
def run_update (old_text : Str) (entries : List MappingRecord) (section_name : Str)
    (fetch : MappingRecord → Option RowVals) (dry_run write emit no_blanks : Bool) :
    Option RunOutcome :=
  match update_section_for_mapping old_text section_name entries fetch no_blanks with
  | Except.error UpdErr.sectionMissing => none
  | Except.error (UpdErr.missingRow lbl) =>
    some { code := 3, saved := none, emitted := none,
           abortMissing := some (lbl,
             if no_blanks then scaffoldRow lbl ++ ['\n']
             else scaffold_rows entries section_name) }
  | Except.ok nc =>
    if emit then
      match build_section_block nc.1 section_name with
      | none => none
      | some blk =>
        some { code := 0, saved := none, abortMissing := none, emitted := some blk }
    else if !nc.2 then
      some { code := 0, saved := none, abortMissing := none, emitted := none }
    else if dry_run || !write then
      some { code := 2, saved := none, abortMissing := none, emitted := none }
    else
      some { code := 0, saved := some nc.1, abortMissing := none, emitted := none }


/-! ## Abstract structure operations for the `apply_wikiterms` proofs

The working text inside `apply_wikiterms` is always the rendering
(`structStr`) of an `AltStruct` whose separators are placeholder inner
texts. The operations below mirror, at the structure level, the effect of
the three `str.replace` loops; the simulation lemmas in the theorems
section relate them to `strReplace` on the rendering. -/

/-- Append two structures (the last plain piece of the first merges with
the leading plain piece of the second). -/
def sAppGo : Str → List (Str × Str) → AltStruct → AltStruct
  | p, [], s2 => (p ++ s2.1, s2.2)
  | p, (y, q) :: rest, s2 =>
    let s3 := sAppGo q rest s2
    (p, (y, s3.1) :: s3.2)

/-- Append two structures. -/
def sApp (s1 s2 : AltStruct) : AltStruct := sAppGo s1.1 s1.2 s2

/-- Fragment a plain piece at every occurrence of `pat` (left to right,
non-overlapping), putting separator `x` at each occurrence: the structure
counterpart of `strReplace s pat (tokStr x)`. -/
def fragStruct (pat x : Str) : Nat → Str → AltStruct
  | _, [] => ([], [])
  | 0, s => (s, [])
  | fuel + 1, s@(c :: rest) =>
    if leadsWith pat s then
      let s3 := fragStruct pat x fuel (s.drop pat.length)
      ([], (x, s3.1) :: s3.2)
    else
      let s3 := fragStruct pat x fuel rest
      (c :: s3.1, s3.2)

/-- The structure counterpart of one term-loop iteration: fragment every
plain piece at `pat`, inserting separator `x`. -/
def stepA (pat x : Str) : Str → List (Str × Str) → AltStruct
  | p, [] => fragStruct pat x p.length p
  | p, (y, q) :: rest =>
    let s3 := stepA pat x q rest
    sApp (fragStruct pat x p.length p) ([], (y, s3.1) :: s3.2)

/-- The structure counterpart of one resolve/restore-loop iteration:
replace every separator equal to `x` by the plain text `rep`, merging the
neighbouring plain pieces. -/
def stepT (x rep : Str) : Str → List (Str × Str) → AltStruct
  | p, [] => (p, [])
  | p, (y, q) :: rest =>
    let s3 := stepT x rep q rest
    if y = x then (p ++ rep ++ s3.1, s3.2)
    else (p, (y, s3.1) :: s3.2)

/-- Invariant of the protected-segment scanners: the rendered segments
reassemble `pre ++ s`, the leading plain piece extends `pre` by a prefix
of `s`, and every span and every following plain piece is an infix of
`s`, the span containing a character outside the placeholder alphabet. -/
def ScanOK (pre s : Str) (res : AltStruct) : Prop :=
  segStr res = pre ++ s ∧
  (∃ u, u <+: s ∧ res.1 = pre ++ u) ∧
  ∀ pr ∈ res.2,
    pr.1 <:+: s ∧ (∃ ch ∈ pr.1, tokChar ch = false) ∧ pr.2 <:+: s

/-! # Theorems -/

/-! ## Foundational string lemmas -/

theorem leadsWith_iff (p s : Str) : leadsWith p s = true ↔ p <+: s := by
  induction p generalizing s with
  | nil => simp [leadsWith]
  | cons a ps ih =>
    cases s with
    | nil =>
      simp only [leadsWith, Bool.false_eq_true, false_iff]
      intro h
      exact absurd (List.eq_nil_of_prefix_nil h) (by simp)
    | cons c cs =>
      simp [leadsWith, List.cons_prefix_cons, ih, and_comm]

theorem containsS_iff (s pat : Str) : containsS s pat = true ↔ pat <:+: s := by
  induction s with
  | nil => simp [containsS]
  | cons c rest ih =>
    simp [containsS, leadsWith_iff, ih, List.infix_cons_iff]

theorem prefix_append_cases {p s t : Str} (h : p <+: s ++ t) :
    p <+: s ∨ ∃ u, p = s ++ u ∧ u <+: t := by
  induction s generalizing p with
  | nil =>
    right
    exact ⟨p, by simp, by simpa using h⟩
  | cons c cs ih =>
    cases p with
    | nil => left; exact List.nil_prefix
    | cons a as =>
      rw [List.cons_append, List.cons_prefix_cons] at h
      obtain ⟨rfl, h2⟩ := h
      rcases ih h2 with h3 | ⟨u, rfl, h4⟩
      · left; exact List.cons_prefix_cons.mpr ⟨rfl, h3⟩
      · right; exact ⟨u, rfl, h4⟩

theorem replGo_fuel (pat rep : Str) (hp : pat ≠ []) :
    ∀ f1 f2 : Nat, ∀ s : Str, s.length ≤ f1 → s.length ≤ f2 →
      replGo pat rep f1 s = replGo pat rep f2 s := by
  intro f1
  induction f1 with
  | zero =>
    intro f2 s hs1 _
    have : s = [] := List.length_eq_zero.mp (Nat.le_zero.mp hs1)
    subst this
    cases f2 <;> rfl
  | succ f ih =>
    intro f2 s hs1 hs2
    cases s with
    | nil => cases f2 <;> rfl
    | cons c rest =>
      cases f2 with
      | zero => simp at hs2
      | succ f2 =>
        simp only [List.length_cons] at hs1 hs2
        have hpl : 1 ≤ pat.length := by
          cases pat with
          | nil => exact absurd rfl hp
          | cons _ _ => simp
        simp only [replGo]
        split
        · have hd : ((c :: rest).drop pat.length).length ≤ f := by
            simp only [List.length_drop, List.length_cons]
            omega
          have hd2 : ((c :: rest).drop pat.length).length ≤ f2 := by
            simp only [List.length_drop, List.length_cons]
            omega
          rw [ih f2 _ hd hd2]
        · have hr : rest.length ≤ f := by simpa using hs1
          have hr2 : rest.length ≤ f2 := by simpa using hs2
          rw [ih f2 _ hr hr2]

theorem strReplace_nil (pat rep : Str) : strReplace [] pat rep = [] := by
  unfold strReplace
  split <;> rfl

theorem strReplace_cons (pat rep : Str) (hp : pat ≠ []) (c : Char) (rest : Str) :
    strReplace (c :: rest) pat rep =
      if leadsWith pat (c :: rest) = true then
        rep ++ strReplace ((c :: rest).drop pat.length) pat rep
      else c :: strReplace rest pat rep := by
  have hpl : 1 ≤ pat.length := by
    cases pat with
    | nil => exact absurd rfl hp
    | cons _ _ => simp
  unfold strReplace
  rw [if_neg hp, if_neg hp, if_neg hp]
  show replGo pat rep (rest.length + 1) (c :: rest) = _
  simp only [replGo]
  split
  · congr 1
    apply replGo_fuel pat rep hp
    · simp only [List.length_drop, List.length_cons]; omega
    · exact le_refl _
  · rfl

theorem strReplace_of_not_contains {s pat : Str} (rep : Str) (h : ¬ pat <:+: s) :
    strReplace s pat rep = s := by
  have hp : pat ≠ [] := by
    rintro rfl
    exact h List.nil_infix
  induction s with
  | nil => exact strReplace_nil pat rep
  | cons c rest ih =>
    rw [strReplace_cons pat rep hp]
    rw [if_neg]
    · rw [ih (fun hi => h (List.infix_cons_iff.mpr (Or.inr hi)))]
    · intro hl
      exact h (List.infix_cons_iff.mpr (Or.inl ((leadsWith_iff _ _).mp hl)))


/-! ## `wiki.py` row machinery lemmas -/

theorem splitParamsGo_ne_nil :
    ∀ fuel s dtpl dlink buf, splitParamsGo fuel s dtpl dlink buf ≠ [] := by
  intro fuel
  induction fuel with
  | zero => intro s dtpl dlink buf; cases s <;> simp [splitParamsGo]
  | succ f ih =>
    intro s dtpl dlink buf
    cases s with
    | nil => simp [splitParamsGo]
    | cons c rest =>
      simp only [splitParamsGo]
      repeat' split
      all_goals first
        | exact ih _ _ _ _
        | exact List.cons_ne_nil _ _

theorem splitParams_ne_nil (s : Str) : splitParams s ≠ [] :=
  splitParamsGo_ne_nil _ _ _ _ _

theorem findSubFrom_some {s pat : Str} {off : Nat} (h : findSubFrom s pat = some off) :
    leadsWith pat (s.drop off) = true ∧ ∀ j, j < off → leadsWith pat (s.drop j) = false := by
  induction s generalizing off with
  | nil =>
    simp only [findSubFrom] at h
    split at h
    · next hp =>
      obtain rfl : (0 : Nat) = off := Option.some.inj h
      subst hp
      exact ⟨rfl, by omega⟩
    · exact absurd h (by simp)
  | cons c rest ih =>
    simp only [findSubFrom] at h
    split at h
    · next hl =>
      obtain rfl : (0 : Nat) = off := Option.some.inj h
      exact ⟨hl, by omega⟩
    · next hl =>
      obtain ⟨off2, hoff2, rfl⟩ := Option.map_eq_some'.mp h
      obtain ⟨h1, h2⟩ := ih hoff2
      refine ⟨h1, ?_⟩
      intro j hj
      cases j with
      | zero => simpa using Bool.eq_false_iff.mpr hl
      | succ j2 => exact h2 j2 (by omega)

theorem scanClose_bounds :
    ∀ fuel s depth k, scanClose fuel s depth = some k → 2 ≤ k ∧ k ≤ s.length := by
  intro fuel
  induction fuel with
  | zero => intro s depth k h; cases s <;> simp [scanClose] at h
  | succ f ih =>
    intro s depth k h
    cases s with
    | nil => simp [scanClose] at h
    | cons c rest =>
      simp only [scanClose] at h
      split at h
      · next hl =>
        obtain ⟨k2, hk2, rfl⟩ := Option.map_eq_some'.mp h
        have := ih _ _ _ hk2
        have hlen : ((c :: rest).drop 2).length = rest.length - 1 := by
          simp [List.length_drop]
        simp only [hlen] at this
        simp only [List.length_cons]
        omega
      · split at h
        · next hclose =>
          have hcl : (2 : Nat) ≤ (c :: rest).length :=
            by simpa using ((leadsWith_iff _ _).mp hclose).length_le
          split at h
          · obtain rfl : (2 : Nat) = k := Option.some.inj h
            exact ⟨le_refl _, hcl⟩
          · obtain ⟨k2, hk2, rfl⟩ := Option.map_eq_some'.mp h
            have := ih _ _ _ hk2
            have hlen : ((c :: rest).drop 2).length = rest.length - 1 := by
              simp [List.length_drop]
            simp only [hlen] at this
            simp only [List.length_cons]
            omega
        · next =>
          obtain ⟨k2, hk2, rfl⟩ := Option.map_eq_some'.mp h
          have := ih _ _ _ hk2
          have hlen : ((c :: rest).tail).length = rest.length := rfl
          simp only [hlen] at this
          simp only [List.length_cons]
          omega


theorem iterGo_mem :
    ∀ (text : Str) (fuel i s e : Nat), (s, e) ∈ iterGo text fuel i →
      i ≤ s ∧ s < e ∧ e ≤ text.length ∧
      leadsWith srNeedle (text.drop s) = true ∧
      scanClose (text.length - s) (text.drop s) 0 = some (e - s) := by
  intro text fuel
  induction fuel with
  | zero => intro i s e h; simp [iterGo] at h
  | succ f ih =>
    intro i s e h
    simp only [iterGo] at h
    split at h
    · simp at h
    · next off hoff =>
      split at h
      · simp at h
      · next k hk =>
        rcases List.mem_cons.mp h with heq | hmem
        · have heq2 : s = i + off ∧ e = i + off + k := by
            constructor
            · exact congrArg Prod.fst heq
            · exact congrArg Prod.snd heq
          obtain ⟨rfl, rfl⟩ := heq2
          have hb := scanClose_bounds _ _ _ _ hk
          have hdl : (text.drop (i + off)).length = text.length - (i + off) :=
            List.length_drop _ _
          have hlw := (findSubFrom_some hoff).1
          rw [List.drop_drop] at hlw
          refine ⟨by omega, by omega, by omega, ?_, ?_⟩
          · exact hlw
          · have : i + off + k - (i + off) = k := by omega
            rw [this]
            exact hk
        · have := ih _ _ _ hmem
          exact ⟨by omega, this.2⟩

theorem iterGo_unclosed (text : Str) (fuel i off : Nat)
    (hfind : findSubFrom (text.drop i) srNeedle = some off)
    (hclose : scanClose (text.length - (i + off)) (text.drop (i + off)) 0 = none) :
    iterGo text fuel i = [] := by
  cases fuel with
  | zero => rfl
  | succ f =>
    simp only [iterGo, hfind, hclose]

/-! ## C2 / C6: row replacement and removal characterization -/

theorem replaceRowGo_char (body expected runner time date path label : Str) :
    ∀ spans : List (Nat × Nat),
      replaceRowGo body expected runner time date path label spans =
        match spans.find? (rowMatches body expected) with
        | none => Except.error label
        | some se =>
          Except.ok (body.take se.1 ++
            buildRow ((splitParams (rowInner (rowFull body se))).headD []) runner time date path ++
            body.drop se.2) := by
  intro spans
  induction spans with
  | nil => rfl
  | cons se rest ih =>
    cases hsp : splitParams (rowInner (rowFull body se)) with
    | nil => exact absurd hsp (splitParams_ne_nil _)
    | cons cat ps =>
      have hrm : rowMatches body expected se =
          (normalize_category_wikitext cat == expected) := by
        unfold rowMatches
        rw [hsp]
      by_cases hm : normalize_category_wikitext cat = expected
      · have hfind : (se :: rest).find? (rowMatches body expected) = some se := by
          apply List.find?_cons_of_pos
          rw [hrm, hm]
          exact beq_self_eq_true expected
        rw [hfind]
        simp only [replaceRowGo, hsp]
        rw [if_pos hm]
        rfl
      · have hfind : (se :: rest).find? (rowMatches body expected) =
            rest.find? (rowMatches body expected) := by
          apply List.find?_cons_of_neg
          rw [hrm]
          simp [hm]
        rw [hfind]
        simp only [replaceRowGo, hsp]
        rw [if_neg hm]
        exact ih

theorem removeRowGo_char (body expected : Str) :
    ∀ spans : List (Nat × Nat),
      removeRowGo body expected spans =
        match spans.find? (rowMatches body expected) with
        | none => body
        | some se =>
          if leadsWith ['\n'] (body.drop se.2) then body.take se.1 ++ (body.drop se.2).tail
          else if (body.take se.1).getLast? = some '\n' then
            (body.take se.1).dropLast ++ body.drop se.2
          else body.take se.1 ++ body.drop se.2 := by
  intro spans
  induction spans with
  | nil => rfl
  | cons se rest ih =>
    cases hsp : splitParams (rowInner (rowFull body se)) with
    | nil => exact absurd hsp (splitParams_ne_nil _)
    | cons cat ps =>
      have hrm : rowMatches body expected se =
          (normalize_category_wikitext cat == expected) := by
        unfold rowMatches
        rw [hsp]
      by_cases hm : normalize_category_wikitext cat = expected
      · have hfind : (se :: rest).find? (rowMatches body expected) = some se := by
          apply List.find?_cons_of_pos
          rw [hrm, hm]
          exact beq_self_eq_true expected
        rw [hfind]
        simp only [removeRowGo, hsp]
        rw [if_pos hm]
      · have hfind : (se :: rest).find? (rowMatches body expected) =
            rest.find? (rowMatches body expected) := by
          apply List.find?_cons_of_neg
          rw [hrm]
          simp [hm]
        rw [hfind]
        simp only [removeRowGo, hsp]
        rw [if_neg hm]
        exact ih


/-! ## Claim C2 -/

/-- C2: `replace_speedrun_record_row` replaces exactly the first
`{{Speedrun Record|...}}` invocation whose first top-level parameter
normalizes equal to the normalized expected label — the replacement splices
in a fresh invocation built from the existing (unnormalized) first
parameter verbatim plus the four new values — and when no invocation
matches it returns the missing-row error (`MissingWikiRowError`) carrying
exactly the requested label, independently of the body. -/
theorem c2_replace_row_first_match (body label runner time date path : Str) :
    replace_speedrun_record_row body label runner time date path =
      match (iterInvocations body).find?
          (rowMatches body (normalize_category_wikitext label)) with
      | none => Except.error label
      | some se =>
        Except.ok (body.take se.1 ++
          buildRow ((splitParams (rowInner (rowFull body se))).headD [])
            runner time date path ++
          body.drop se.2) :=
  replaceRowGo_char body (normalize_category_wikitext label) runner time date path label
    (iterInvocations body)

/-! ## Claim C6 -/

set_option maxRecDepth 40000 in
/-- C6 counterexample: removal is not idempotent. On a body holding two
identical matching rows, the first application removes one row and the
second application removes the other. -/
theorem c6_counterexample :
    remove_speedrun_record_row
        (remove_speedrun_record_row
          "\x7b\x7bSpeedrun Record|x|a|b|c|d\x7d\x7d\n\x7b\x7bSpeedrun Record|x|a|b|c|d\x7d\x7d\n".toList
          "x".toList)
        "x".toList ≠
      remove_speedrun_record_row
        "\x7b\x7bSpeedrun Record|x|a|b|c|d\x7d\x7d\n\x7b\x7bSpeedrun Record|x|a|b|c|d\x7d\x7d\n".toList
        "x".toList := by
  decide

/-- C6 (amended): `remove_speedrun_record_row` removes the first matching
invocation together with one adjacent newline (trailing if present, else
preceding, else none), returns the body unchanged when no invocation
matches, and never fails; applying it twice equals applying it once
whenever the first removal leaves no matching invocation (in particular
for a body with a single matching row whose removal does not splice
together a new one). -/
theorem c6_remove_row (body label : Str) :
    (remove_speedrun_record_row body label =
      match (iterInvocations body).find?
          (rowMatches body (normalize_category_wikitext label)) with
      | none => body
      | some se =>
        if leadsWith ['\n'] (body.drop se.2) then body.take se.1 ++ (body.drop se.2).tail
        else if (body.take se.1).getLast? = some '\n' then
          (body.take se.1).dropLast ++ body.drop se.2
        else body.take se.1 ++ body.drop se.2) ∧
    ((iterInvocations (remove_speedrun_record_row body label)).find?
        (rowMatches (remove_speedrun_record_row body label)
          (normalize_category_wikitext label)) = none →
      remove_speedrun_record_row (remove_speedrun_record_row body label) label =
        remove_speedrun_record_row body label) := by
  constructor
  · exact removeRowGo_char body (normalize_category_wikitext label) (iterInvocations body)
  · intro h
    have := removeRowGo_char (remove_speedrun_record_row body label)
      (normalize_category_wikitext label)
      (iterInvocations (remove_speedrun_record_row body label))
    rw [h] at this
    exact this

set_option maxRecDepth 100000 in
/-- C6 witness: the spec scenario. Removing the row labelled
`Any% (Hero Mode)` (matched through its `{{Small|(...)}}` wrapper) deletes
the row and its trailing newline, and the removal is idempotent there. -/
theorem c6_remove_row_witness :
    remove_speedrun_record_row
        "\x7b\x7bSpeedrun Record|Any% \x7b\x7bSmall|(Hero Mode)\x7d\x7d|Alice|1h 2m 3s|January 1, 2024|game/runs/abc\x7d\x7d\nrest".toList
        "Any% (Hero Mode)".toList = "rest".toList ∧
    remove_speedrun_record_row
        (remove_speedrun_record_row
          "\x7b\x7bSpeedrun Record|Any% \x7b\x7bSmall|(Hero Mode)\x7d\x7d|Alice|1h 2m 3s|January 1, 2024|game/runs/abc\x7d\x7d\nrest".toList
          "Any% (Hero Mode)".toList)
        "Any% (Hero Mode)".toList =
      remove_speedrun_record_row
        "\x7b\x7bSpeedrun Record|Any% \x7b\x7bSmall|(Hero Mode)\x7d\x7d|Alice|1h 2m 3s|January 1, 2024|game/runs/abc\x7d\x7d\nrest".toList
        "Any% (Hero Mode)".toList :=
  ⟨by decide,
    (c6_remove_row
      "\x7b\x7bSpeedrun Record|Any% \x7b\x7bSmall|(Hero Mode)\x7d\x7d|Alice|1h 2m 3s|January 1, 2024|game/runs/abc\x7d\x7d\nrest".toList
      "Any% (Hero Mode)".toList).2 (by decide)⟩

/-! ## Claim C10 -/

/-- C10: the invocation scanner is a total function of its fuel-bounded
scan; every yielded span `(s, e)` starts at a `{{Speedrun Record|` opener
at `s` and ends at the offset where the brace-depth scan (`scanClose`)
first returns to depth zero; an opener whose braces never return to zero
yields no invocation and ends the scan; and
`replace_speedrun_record_row` on a body holding only such an unclosed
opener raises the missing-row error instead of yielding a truncated
span. -/
theorem c10_scanner_props :
    (∀ (text : Str) (fuel i s e : Nat), (s, e) ∈ iterGo text fuel i →
      i ≤ s ∧ s < e ∧ e ≤ text.length ∧
      leadsWith srNeedle (text.drop s) = true ∧
      scanClose (text.length - s) (text.drop s) 0 = some (e - s)) ∧
    (∀ (text : Str) (fuel i off : Nat),
      findSubFrom (text.drop i) srNeedle = some off →
      scanClose (text.length - (i + off)) (text.drop (i + off)) 0 = none →
      iterGo text fuel i = []) ∧
    iterInvocations "\x7b\x7bSpeedrun Record|x".toList = [] ∧
    replace_speedrun_record_row "\x7b\x7bSpeedrun Record|x".toList "x".toList
        "r".toList "t".toList "d".toList "p".toList =
      Except.error "x".toList :=
  ⟨iterGo_mem, iterGo_unclosed, by decide, by rfl⟩

/-- C10 witness: the unclosed-opener conjunct applied at a concrete
input. -/
theorem c10_scanner_props_witness :
    iterGo "\x7b\x7bSpeedrun Record|x".toList 20 0 = [] :=
  c10_scanner_props.2.1 "\x7b\x7bSpeedrun Record|x".toList 20 0 0 (by decide) (by decide)


/-! ## Claim C4 -/

/-- C4: `should_exclude_wikitext` (case-insensitive substring matching
against the lowercased label) keeps the label when no deny term matches;
excludes it when some deny term matches and no allow term matches; and
when both match, excludes exactly when some matched deny term is
contained in no matched allow phrase. The spec scenario instances are
included. -/
theorem c4_should_exclude (wiki_cat : Str) (deny allow : List Str) :
    (should_exclude_wikitext wiki_cat deny allow = true ↔
      ∃ d ∈ deny, d ≠ [] ∧ d <:+: lowerStr wiki_cat ∧
        ∀ a ∈ allow, a ≠ [] → a <:+: lowerStr wiki_cat → ¬ d <:+: a) ∧
    should_exclude_wikitext "Hero Mode Master Quest".toList
      ["master quest".toList] ["hero mode master quest".toList] = false ∧
    should_exclude_wikitext "Master Quest Only".toList
      ["master quest".toList] ["hero mode master quest".toList] = true := by
  refine ⟨?_, by decide, by decide⟩
  unfold should_exclude_wikitext
  by_cases hd : deny = []
  · subst hd
    simp
  · rw [if_neg hd]
    set lc := lowerStr wiki_cat with hlc
    by_cases hmd : deny.filter (fun d => !(d == []) && containsS lc d) = []
    · rw [if_pos hmd]
      simp only [Bool.false_eq_true, false_iff]
      rintro ⟨d, hdm, hne, hinf, -⟩
      have := List.filter_eq_nil_iff.mp hmd d hdm
      simp only [Bool.and_eq_true, Bool.not_eq_true', beq_eq_false_iff_ne, ne_eq,
        containsS_iff] at this
      exact this ⟨hne, hinf⟩
    · rw [if_neg hmd]
      have hallow : (if allow = [] then [] else allow.filter (fun a => !(a == []) && containsS lc a)) =
          allow.filter (fun a => !(a == []) && containsS lc a) := by
        by_cases ha : allow = []
        · subst ha; simp
        · rw [if_neg ha]
      rw [hallow]
      by_cases hma : allow.filter (fun a => !(a == []) && containsS lc a) = []
      · rw [if_pos hma]
        simp only [true_iff]
        obtain ⟨d, hdm⟩ := List.exists_mem_of_ne_nil _ hmd
        have hdp := List.mem_filter.mp hdm
        simp only [Bool.and_eq_true, Bool.not_eq_true', beq_eq_false_iff_ne, ne_eq,
          containsS_iff] at hdp
        refine ⟨d, hdp.1, hdp.2.1, hdp.2.2, ?_⟩
        intro a ha hane hainf
        exfalso
        have := List.filter_eq_nil_iff.mp hma a ha
        simp only [Bool.and_eq_true, Bool.not_eq_true', beq_eq_false_iff_ne, ne_eq,
          containsS_iff] at this
        exact this ⟨hane, hainf⟩
      · rw [if_neg hma]
        simp only [List.any_eq_true, List.all_eq_true, List.mem_filter,
          Bool.and_eq_true, Bool.not_eq_true', beq_eq_false_iff_ne, ne_eq,
          containsS_iff]
        constructor
        · rintro ⟨d, ⟨hdm, hne, hinf⟩, hall⟩
          refine ⟨d, hdm, hne, hinf, ?_⟩
          intro a ha hane hainf
          have h2 := hall a ⟨ha, hane, hainf⟩
          rw [← containsS_iff]
          simp [h2]
        · rintro ⟨d, hdm, hne, hinf, hall⟩
          refine ⟨d, ⟨hdm, hne, hinf⟩, ?_⟩
          intro a hamem
          have h2 := hall a hamem.1 hamem.2.1 hamem.2.2
          rw [← containsS_iff] at h2
          exact Bool.eq_false_iff.mpr h2


/-! ## C5: section extraction lemmas -/

theorem matchTagAt_nil (kind name : Str) : matchTagAt kind name [] = none := rfl

theorem matchTagAt_ws {c : Char} (hc : pyIsSpace c = true) (kind name : Str) (s : Str) :
    matchTagAt kind name (c :: s) = none := by
  have h1 : ('<' == c) = false := by
    simp only [pyIsSpace, Bool.or_eq_true, beq_iff_eq] at hc
    rcases hc with ((((rfl | rfl) | rfl) | rfl) | rfl) | rfl <;> rfl
  have h2 : leadsWith "<section".toList (c :: s) = false := by
    show leadsWith ('<' :: "section".toList) (c :: s) = false
    simp only [leadsWith, h1, Bool.false_and]
  unfold matchTagAt
  rw [h2]
  simp

theorem firstTagFrom_some (kind name : Str) :
    ∀ (fuel : Nat) (s : Str) (off tl : Nat),
      firstTagFrom kind name fuel s = some (off, tl) →
      matchTagAt kind name (s.drop off) = some tl ∧
        ∀ j, j < off → matchTagAt kind name (s.drop j) = none := by
  intro fuel
  induction fuel with
  | zero => intro s off tl h; cases s <;> simp [firstTagFrom] at h
  | succ f ih =>
    intro s off tl h
    cases s with
    | nil => simp [firstTagFrom] at h
    | cons c rest =>
      simp only [firstTagFrom] at h
      split at h
      · next tl2 hm =>
        have h1 : (0, tl2) = (off, tl) := Option.some.inj h
        have hoff : off = 0 := (congrArg Prod.fst h1).symm
        have htl : tl = tl2 := (congrArg Prod.snd h1).symm
        subst hoff
        subst htl
        exact ⟨hm, by omega⟩
      · next hm =>
        obtain ⟨⟨off2, tl2⟩, hp, heq⟩ := Option.map_eq_some'.mp h
        have hoff : off = off2 + 1 := (congrArg Prod.fst heq).symm
        have htl : tl = tl2 := (congrArg Prod.snd heq).symm
        subst hoff
        subst htl
        obtain ⟨h1, h2⟩ := ih _ _ _ hp
        refine ⟨h1, ?_⟩
        intro j hj
        cases j with
        | zero => exact hm
        | succ j2 => exact h2 j2 (by omega)

theorem firstTagFrom_none (kind name : Str) :
    ∀ (fuel : Nat) (s : Str), s.length < fuel →
      firstTagFrom kind name fuel s = none →
      ∀ j, matchTagAt kind name (s.drop j) = none := by
  intro fuel
  induction fuel with
  | zero => intro s h; omega
  | succ f ih =>
    intro s hlen h j
    cases s with
    | nil => rw [List.drop_nil]; exact matchTagAt_nil kind name
    | cons c rest =>
      simp only [firstTagFrom] at h
      split at h
      · exact absurd h (by simp)
      · next hm =>
        have hrest := Option.map_eq_none'.mp h
        cases j with
        | zero => exact hm
        | succ j2 =>
          have : rest.length < f := by simpa using hlen
          exact ih rest this hrest j2

theorem wsRunLen_mem {t : Str} {k : Nat} (hk : k < wsRunLen t) :
    ∃ ch rest, t.drop k = ch :: rest ∧ pyIsSpace ch = true := by
  induction t generalizing k with
  | nil => simp [wsRunLen] at hk
  | cons c cs ih =>
    by_cases hc : pyIsSpace c = true
    · cases k with
      | zero => exact ⟨c, cs, rfl, hc⟩
      | succ k2 =>
        have : k2 < wsRunLen cs := by
          simp only [wsRunLen, List.takeWhile_cons, hc] at hk ⊢
          simpa using hk
        exact ih this
    · exfalso
      have : wsRunLen (c :: cs) = 0 := by
        simp only [wsRunLen, List.takeWhile_cons]
        rw [Bool.eq_false_iff.mpr hc]
        simp
      omega

theorem take_mid_drop (text : Str) (pe p : Nat) (h : pe ≤ p) :
    text.take pe ++ (text.drop pe).take (p - pe) ++ text.drop p = text := by
  have h1 : (text.drop pe).drop (p - pe) = text.drop p := by
    rw [List.drop_drop]
    congr 1
    omega
  calc text.take pe ++ (text.drop pe).take (p - pe) ++ text.drop p
      = text.take pe ++ ((text.drop pe).take (p - pe) ++ (text.drop pe).drop (p - pe)) := by
        rw [h1, List.append_assoc]
    _ = text.take pe ++ text.drop pe := by rw [List.take_append_drop]
    _ = text := List.take_append_drop _ _


/-! ## Claim C5 -/

set_option maxRecDepth 40000 in
/-- C5 counterexample: the prefix returned by `extract_section` does not
end immediately after the first begin delimiter — it also absorbs the
whitespace that follows the tag (here a newline), and the suffix starts
one character before the end delimiter. -/
theorem c5_counterexample :
    extract_section "<section begin=\"s\"/>\nB\n<section end=\"s\"/>".toList "s".toList =
      some ("<section begin=\"s\"/>\n".toList, "B".toList,
        "\n<section end=\"s\"/>".toList) ∧
    "<section begin=\"s\"/>\n".toList ≠ "<section begin=\"s\"/>".toList := by
  exact ⟨by rfl, by decide⟩

/-- C5 (amended): whenever `extract_section` succeeds, the three returned
pieces concatenate to the original text exactly; the prefix ends after the
first begin delimiter for the name plus the maximal whitespace run
following it; the suffix begins at the first end delimiter found after
that point minus the maximal whitespace run immediately preceding it
(clamped to the prefix end); and extraction fails exactly when there is no
begin delimiter, or no end delimiter at or after the end of the first
begin delimiter. -/
theorem c5_extract_section (text name : Str) :
    (∀ pre body suf, extract_section text name = some (pre, body, suf) →
      pre ++ body ++ suf = text ∧
      ∃ b bl, firstTagFrom "begin".toList name (text.length + 1) text = some (b, bl) ∧
        matchTagAt "begin".toList name (text.drop b) = some bl ∧
        (∀ j, j < b → matchTagAt "begin".toList name (text.drop j) = none) ∧
        pre = text.take (b + bl + wsRunLen (text.drop (b + bl))) ∧
        ∃ q0 ql,
          firstTagFrom "end".toList name (text.length + 1)
            (text.drop (b + bl + wsRunLen (text.drop (b + bl)))) = some (q0, ql) ∧
          suf = text.drop (max (b + bl + wsRunLen (text.drop (b + bl)))
            (b + bl + wsRunLen (text.drop (b + bl)) + q0 -
              wsRunLen (text.take (b + bl + wsRunLen (text.drop (b + bl)) + q0)).reverse))) ∧
    (extract_section text name = none ↔
      ¬ ∃ b bl q ql,
        firstTagFrom "begin".toList name (text.length + 1) text = some (b, bl) ∧
        b + bl ≤ q ∧ matchTagAt "end".toList name (text.drop q) = some ql) := by
  constructor
  · intro pre body suf h
    unfold extract_section at h
    dsimp only [] at h
    split at h
    · exact absurd h (by simp)
    · next bp hbp =>
      split at h
      · exact absurd h (by simp)
      · next qp hqp =>
        have hinj := Option.some.inj h
        have hpre : pre = text.take (bp.1 + bp.2 + wsRunLen (text.drop (bp.1 + bp.2))) :=
          (congrArg (fun t => t.1) hinj).symm
        have hbody : body = (text.drop (bp.1 + bp.2 + wsRunLen (text.drop (bp.1 + bp.2)))).take
            ((max (bp.1 + bp.2 + wsRunLen (text.drop (bp.1 + bp.2)))
              (bp.1 + bp.2 + wsRunLen (text.drop (bp.1 + bp.2)) + qp.1 -
                wsRunLen (text.take (bp.1 + bp.2 + wsRunLen (text.drop (bp.1 + bp.2)) + qp.1)).reverse)) -
              (bp.1 + bp.2 + wsRunLen (text.drop (bp.1 + bp.2)))) :=
          (congrArg (fun t => t.2.1) hinj).symm
        have hsuf : suf = text.drop (max (bp.1 + bp.2 + wsRunLen (text.drop (bp.1 + bp.2)))
            (bp.1 + bp.2 + wsRunLen (text.drop (bp.1 + bp.2)) + qp.1 -
              wsRunLen (text.take (bp.1 + bp.2 + wsRunLen (text.drop (bp.1 + bp.2)) + qp.1)).reverse)) :=
          (congrArg (fun t => t.2.2) hinj).symm
        obtain ⟨hm1, hm2⟩ := firstTagFrom_some "begin".toList name _ _ _ _ hbp
        constructor
        · rw [hpre, hbody, hsuf]
          exact take_mid_drop text _ _ (le_max_left _ _)
        · refine ⟨bp.1, bp.2, by rw [hbp], hm1, hm2, hpre, qp.1, qp.2, by rw [hqp], hsuf⟩
  · constructor
    · intro hnone hpair
      obtain ⟨b, bl, q, ql, hfb, hble, hq⟩ := hpair
      unfold extract_section at hnone
      dsimp only [] at hnone
      split at hnone
      · next hfbn => rw [hfb] at hfbn; exact absurd hfbn (by simp)
      · next bp hbp =>
        rw [hbp] at hfb
        have hb : bp.1 = b := congrArg Prod.fst (Option.some.inj hfb)
        have hbl : bp.2 = bl := congrArg Prod.snd (Option.some.inj hfb)
        subst hb
        subst hbl
        split at hnone
        · next hend =>
          have hall := firstTagFrom_none "end".toList name (text.length + 1)
            (text.drop (bp.1 + bp.2 + wsRunLen (text.drop (bp.1 + bp.2))))
            (by
              have := List.length_drop (bp.1 + bp.2 + wsRunLen (text.drop (bp.1 + bp.2))) text
              omega)
            hend
          have hqpe : bp.1 + bp.2 + wsRunLen (text.drop (bp.1 + bp.2)) ≤ q := by
            by_contra hlt
            push_neg at hlt
            have hk : q - (bp.1 + bp.2) < wsRunLen (text.drop (bp.1 + bp.2)) := by omega
            obtain ⟨ch, rest, hdrop, hws⟩ := wsRunLen_mem hk
            rw [List.drop_drop] at hdrop
            have : bp.1 + bp.2 + (q - (bp.1 + bp.2)) = q := by omega
            rw [this] at hdrop
            rw [hdrop, matchTagAt_ws hws] at hq
            exact absurd hq (by simp)
          have h2 := hall (q - (bp.1 + bp.2 + wsRunLen (text.drop (bp.1 + bp.2))))
          rw [List.drop_drop] at h2
          have : bp.1 + bp.2 + wsRunLen (text.drop (bp.1 + bp.2)) +
              (q - (bp.1 + bp.2 + wsRunLen (text.drop (bp.1 + bp.2)))) = q := by omega
          rw [this] at h2
          rw [h2] at hq
          exact absurd hq (by simp)
        · exact absurd hnone (by simp)
    · intro hnp
      cases he : extract_section text name with
      | none => rfl
      | some v =>
        exfalso
        apply hnp
        unfold extract_section at he
        dsimp only [] at he
        split at he
        · exact absurd he (by simp)
        · next bp hbp =>
          split at he
          · exact absurd he (by simp)
          · next qp hqp =>
            obtain ⟨hm1, _⟩ := firstTagFrom_some "end".toList name _ _ _ _ hqp
            rw [List.drop_drop] at hm1
            refine ⟨bp.1, bp.2,
              bp.1 + bp.2 + wsRunLen (text.drop (bp.1 + bp.2)) + qp.1, qp.2,
              hbp, by omega, hm1⟩


set_option maxRecDepth 40000 in
/-- C5 witness: the round-trip conjunct applied at a concrete page. -/
theorem c5_extract_section_witness :
    "<section begin=\"s\"/>\n".toList ++ "B".toList ++ "\n<section end=\"s\"/>".toList =
      "<section begin=\"s\"/>\nB\n<section end=\"s\"/>".toList :=
  ((c5_extract_section "<section begin=\"s\"/>\nB\n<section end=\"s\"/>".toList
    "s".toList).1 _ _ _ (by rfl)).1


/-! ## Claim C3 -/

/-- C3: a missing-row failure aborts the whole batch immediately: the
entry loop short-circuits at the failing record (later records are never
processed), the run performs no page write, surfaces the missing label
together with a scaffold of all expected rows (or just the one missing
row under the no-blanks option), and returns exit code 3. -/
theorem c3_missing_row_aborts (old_text : Str) (entries : List MappingRecord)
    (section_name : Str) (fetch : MappingRecord → Option RowVals)
    (dry_run write emit no_blanks : Bool) (lbl : Str) :
    ((∀ (e : MappingRecord) (rest : List MappingRecord) (body : Str) (rv : RowVals),
        e.sectionId = section_name → fetch e = some rv →
        replace_speedrun_record_row body e.wiki rv.runner rv.time rv.date rv.path =
          Except.error lbl →
        processEntries section_name fetch no_blanks (e :: rest) body =
          Except.error lbl)) ∧
    (update_section_for_mapping old_text section_name entries fetch no_blanks =
        Except.error (UpdErr.missingRow lbl) →
      run_update old_text entries section_name fetch dry_run write emit no_blanks =
        some { code := 3, saved := none, emitted := none,
               abortMissing := some (lbl,
                 if no_blanks then scaffoldRow lbl ++ ['\n']
                 else scaffold_rows entries section_name) }) := by
  constructor
  · intro e rest body rv hsec hfetch hrepl
    unfold processEntries
    rw [if_neg (by simp [hsec]), hfetch]
    dsimp only
    rw [hrepl]
  · intro h
    unfold run_update
    rw [h]

set_option maxRecDepth 100000 in
/-- C3 witness: a concrete run whose section lacks the expected row
aborts with exit code 3, no save, and the scaffold. -/
theorem c3_missing_row_aborts_witness :
    run_update "X<section begin=\"s\"/>\nno rows\n<section end=\"s\"/>Y".toList
        [⟨"s".toList, "C1".toList, "g".toList, "c".toList, [], "C1".toList, false⟩]
        "s".toList
        (fun _ => some ⟨"R".toList, "T".toList, "D".toList, "P".toList⟩)
        true false false false =
      some { code := 3, saved := none, emitted := none,
             abortMissing := some ("C1".toList,
               scaffold_rows
                 [⟨"s".toList, "C1".toList, "g".toList, "c".toList, [], "C1".toList, false⟩]
                 "s".toList) } :=
  (c3_missing_row_aborts
    "X<section begin=\"s\"/>\nno rows\n<section end=\"s\"/>Y".toList
    [⟨"s".toList, "C1".toList, "g".toList, "c".toList, [], "C1".toList, false⟩]
    "s".toList
    (fun _ => some ⟨"R".toList, "T".toList, "D".toList, "P".toList⟩)
    true false false false "C1".toList).2 (by rfl)

/-! ## Claim C8 -/

set_option maxRecDepth 100000 in
/-- C8 counterexample: in emit mode, a run whose rewritten text differs
from the old text performs no save and returns exit code 0, not 2. -/
theorem c8_counterexample :
    update_section_for_mapping
        "X<section begin=\"s\"/>\n\x7b\x7bSpeedrun Record|C1|R0|T|D|P\x7d\x7d\n<section end=\"s\"/>Y".toList
        "s".toList
        [⟨"s".toList, "C1".toList, "g".toList, "c".toList, [], "C1".toList, false⟩]
        (fun _ => some ⟨"R".toList, "T".toList, "D".toList, "P".toList⟩) false =
      Except.ok
        ("X<section begin=\"s\"/>\n\x7b\x7bSpeedrun Record|C1|R|T|D|P\x7d\x7d\n<section end=\"s\"/>Y".toList,
          true) ∧
    "X<section begin=\"s\"/>\n\x7b\x7bSpeedrun Record|C1|R|T|D|P\x7d\x7d\n<section end=\"s\"/>Y".toList ≠
      "X<section begin=\"s\"/>\n\x7b\x7bSpeedrun Record|C1|R0|T|D|P\x7d\x7d\n<section end=\"s\"/>Y".toList ∧
    run_update
        "X<section begin=\"s\"/>\n\x7b\x7bSpeedrun Record|C1|R0|T|D|P\x7d\x7d\n<section end=\"s\"/>Y".toList
        [⟨"s".toList, "C1".toList, "g".toList, "c".toList, [], "C1".toList, false⟩]
        "s".toList
        (fun _ => some ⟨"R".toList, "T".toList, "D".toList, "P".toList⟩)
        false false true false =
      some { code := 0, saved := none, abortMissing := none,
             emitted := some
               "<section begin=\"s\"/>\n\x7b\x7bSpeedrun Record|C1|R|T|D|P\x7d\x7d\n<section end=\"s\"/>".toList } :=
  ⟨by rfl, by decide, by rfl⟩

/-- C8 (amended): for a run that completes row processing with rewritten
text `nt`: outside emit mode, `nt = old` reports no-op with exit code 0
and no save; `nt ≠ old` with dry-run set or write unset returns exit
code 2 and no save; `nt ≠ old` with write set and dry-run unset performs
the single save of `nt` and returns 0; in emit mode the run prints the
section block and returns 0 without saving even when the text changed;
and a save happens only when emit is unset, write is set, dry-run is
unset and the text changed. -/
theorem c8_exit_codes (old_text : Str) (entries : List MappingRecord)
    (section_name : Str) (fetch : MappingRecord → Option RowVals)
    (dry_run write emit no_blanks : Bool) (nt : Str) (ch : Bool)
    (h : update_section_for_mapping old_text section_name entries fetch no_blanks =
      Except.ok (nt, ch)) :
    (emit = false → nt = old_text →
      run_update old_text entries section_name fetch dry_run write emit no_blanks =
        some { code := 0, saved := none, abortMissing := none, emitted := none }) ∧
    (emit = false → nt ≠ old_text → (dry_run = true ∨ write = false) →
      run_update old_text entries section_name fetch dry_run write emit no_blanks =
        some { code := 2, saved := none, abortMissing := none, emitted := none }) ∧
    (emit = false → nt ≠ old_text → dry_run = false → write = true →
      run_update old_text entries section_name fetch dry_run write emit no_blanks =
        some { code := 0, saved := some nt, abortMissing := none, emitted := none }) ∧
    (∀ o, run_update old_text entries section_name fetch dry_run write emit no_blanks =
        some o → o.saved ≠ none →
      o.saved = some nt ∧ emit = false ∧ write = true ∧ dry_run = false ∧ nt ≠ old_text) := by
  have hch : ch = decide (nt ≠ old_text) := by
    unfold update_section_for_mapping at h
    split at h
    · exact absurd h (by simp)
    · split at h
      · exact absurd h (by simp)
      · have hinj := Except.ok.inj h
        have := congrArg Prod.snd hinj
        simp only at this
        rw [← this]
        have h1 := congrArg Prod.fst hinj
        simp only at h1
        rw [h1]
  subst hch
  refine ⟨?_, ?_, ?_, ?_⟩
  · intro hemit heq
    unfold run_update
    rw [h, hemit]
    simp [heq]
  · intro hemit hne hdw
    unfold run_update
    rw [h, hemit]
    rcases hdw with hd | hw
    · simp [hne, hd]
    · simp [hne, hw]
  · intro hemit hne hd hw
    unfold run_update
    rw [h, hemit, hd, hw]
    simp [hne]
  · intro o ho hsaved
    unfold run_update at ho
    rw [h] at ho
    dsimp only at ho
    split at ho
    · next hemit =>
      split at ho
      · exact absurd ho (by simp)
      · have := Option.some.inj ho
        rw [← this] at hsaved
        simp at hsaved
    · next hemit =>
      split at ho
      · have := Option.some.inj ho
        rw [← this] at hsaved
        simp at hsaved
      · next hchg =>
        split at ho
        · have := Option.some.inj ho
          rw [← this] at hsaved
          simp at hsaved
        · next hdw =>
          have := Option.some.inj ho
          rw [← this] at hsaved ⊢
          have hemit2 : emit = false := by
            revert hemit
            cases emit <;> simp
          have hne : nt ≠ old_text := by
            revert hchg
            by_cases hx : nt = old_text <;> simp [hx]
          have hdw2 : dry_run = false ∧ write = true := by
            revert hdw
            cases dry_run <;> cases write <;> simp
          exact ⟨rfl, hemit2, hdw2.2, hdw2.1, hne⟩

set_option maxRecDepth 100000 in
/-- C8 witness: a changed dry run (write unset, emit unset) returns exit
code 2 with no save. -/
theorem c8_exit_codes_witness :
    run_update
        "X<section begin=\"s\"/>\n\x7b\x7bSpeedrun Record|C1|R0|T|D|P\x7d\x7d\n<section end=\"s\"/>Y".toList
        [⟨"s".toList, "C1".toList, "g".toList, "c".toList, [], "C1".toList, false⟩]
        "s".toList
        (fun _ => some ⟨"R".toList, "T".toList, "D".toList, "P".toList⟩)
        true false false false =
      some { code := 2, saved := none, abortMissing := none, emitted := none } :=
  ((c8_exit_codes
      "X<section begin=\"s\"/>\n\x7b\x7bSpeedrun Record|C1|R0|T|D|P\x7d\x7d\n<section end=\"s\"/>Y".toList
      [⟨"s".toList, "C1".toList, "g".toList, "c".toList, [], "C1".toList, false⟩]
      "s".toList
      (fun _ => some ⟨"R".toList, "T".toList, "D".toList, "P".toList⟩)
      true false false false
      "X<section begin=\"s\"/>\n\x7b\x7bSpeedrun Record|C1|R|T|D|P\x7d\x7d\n<section end=\"s\"/>Y".toList
      true (by rfl)).2.1) rfl (by decide) (Or.inl rfl)


/-! ## C9: de-duplication lemmas -/

theorem insertAscBy_perm (lt : α → α → Bool) (x : α) :
    ∀ l : List α, (insertAscBy lt x l).Perm (x :: l) := by
  intro l
  induction l with
  | nil => exact List.Perm.refl _
  | cons y rest ih =>
    unfold insertAscBy
    split
    · exact List.Perm.refl _
    · exact (List.Perm.cons y ih).trans (List.Perm.swap x y rest)

theorem sortAscBy_perm (lt : α → α → Bool) :
    ∀ l : List α, (sortAscBy lt l).Perm l := by
  intro l
  induction l with
  | nil => exact List.Perm.refl _
  | cons x rest ih =>
    unfold sortAscBy
    exact (insertAscBy_perm lt x (sortAscBy lt rest)).trans (List.Perm.cons x ih)

theorem dedupeLoop_pairwise (deny allow : List Str) :
    ∀ (cands out : List MappingRecord) (seen : List (Str × Str × Str × Str × List (Str × Str))),
      (∀ r ∈ out, recordKey r ∈ seen) →
      out.Pairwise (fun a b => recordKey a ≠ recordKey b) →
      (dedupeLoop deny allow cands out seen).Pairwise
        (fun a b => recordKey a ≠ recordKey b) := by
  intro cands
  induction cands with
  | nil => intro out seen _ hpw; exact hpw
  | cons c rest ih =>
    intro out seen hsub hpw
    unfold dedupeLoop
    split
    · exact ih out seen hsub hpw
    · split
      · exact ih out seen hsub hpw
      · next hnot =>
        apply ih (out ++ [c]) (seen ++ [recordKey c])
        · intro r hr
          rcases List.mem_append.mp hr with hro | hrc
          · exact List.mem_append.mpr (Or.inl (hsub r hro))
          · have : r = c := by simpa using hrc
            subst this
            exact List.mem_append.mpr (Or.inr (by simp))
        · rw [List.pairwise_append]
          refine ⟨hpw, List.pairwise_singleton _ _, ?_⟩
          intro a ha b hb
          have : b = c := by simpa using hb
          subst this
          intro heq
          exact hnot (heq ▸ hsub a ha)

theorem dedupeLoop_first (deny allow : List Str) :
    ∀ (cands out : List MappingRecord) (seen : List (Str × Str × Str × Str × List (Str × Str))),
      seen = out.map recordKey →
      ∀ r ∈ dedupeLoop deny allow cands out seen,
        r ∈ out ∨ (recordKey r ∉ seen ∧
          (cands.filter (fun c => !should_exclude_wikitext c.wiki deny allow)).find?
            (fun c => recordKey c == recordKey r) = some r) := by
  intro cands
  induction cands with
  | nil =>
    intro out seen _ r hr
    exact Or.inl hr
  | cons c rest ih =>
    intro out seen hseen r hr
    unfold dedupeLoop at hr
    split at hr
    · next hexc =>
      have hfilter : (c :: rest).filter
          (fun c => !should_exclude_wikitext c.wiki deny allow) =
          rest.filter (fun c => !should_exclude_wikitext c.wiki deny allow) := by
        rw [List.filter_cons]
        simp [hexc]
      rw [hfilter]
      exact ih out seen hseen r hr
    · next hexc =>
      have hfilter : (c :: rest).filter
          (fun c => !should_exclude_wikitext c.wiki deny allow) =
          c :: rest.filter (fun c => !should_exclude_wikitext c.wiki deny allow) := by
        rw [List.filter_cons]
        have hexc2 : should_exclude_wikitext c.wiki deny allow = false :=
          Bool.eq_false_iff.mpr hexc
        simp [hexc2]
      rw [hfilter]
      split at hr
      · next hmem =>
        rcases ih out seen hseen r hr with hl | ⟨hns, hfind⟩
        · exact Or.inl hl
        · refine Or.inr ⟨hns, ?_⟩
          rw [List.find?_cons_of_neg, hfind]
          intro heq
          simp only [beq_iff_eq] at heq
          exact hns (heq ▸ hmem)
      · next hmem =>
        rcases ih (out ++ [c]) (seen ++ [recordKey c]) (by simp [hseen]) r hr with hl | ⟨hns, hfind⟩
        · rcases List.mem_append.mp hl with hro | hrc
          · exact Or.inl hro
          · have : r = c := by simpa using hrc
            subst this
            refine Or.inr ⟨hmem, ?_⟩
            rw [List.find?_cons_of_pos]
            exact beq_self_eq_true _
        · have hns1 : recordKey r ∉ seen := fun hx => hns (by simp [hx])
          have hnsc : recordKey r ≠ recordKey c := by
            intro heq
            exact hns (by simp [heq])
          refine Or.inr ⟨hns1, ?_⟩
          rw [List.find?_cons_of_neg, hfind]
          intro heq
          simp only [beq_iff_eq] at heq
          exact hnsc heq.symm


/-! ## Claim C9 -/

/-- C9: within one generation run no two emitted mapping records share the
composite key `(section, wiki_category_wikitext, game, category_id,
sorted(variables))`; duplicates arising from the candidate stream (for
example after query-variable filtering removes a differentiator) are
dropped, and every emitted record is the first non-excluded candidate
bearing its key. -/
theorem c9_unique_mapping_keys (sect game_slug : Str) (include_misc : Bool)
    (wanted : List Str) (all_categories : Bool) (cats : List Category)
    (terms : List (Str × Str)) (deny allow lkeep ldrop qkeep qdrop : List Str) :
    (∀ out, generate_per_game_entries sect game_slug include_misc wanted all_categories
        cats terms deny allow lkeep ldrop qkeep qdrop = some out →
      out.Pairwise (fun a b => recordKey a ≠ recordKey b)) ∧
    (∀ (cands : List MappingRecord) (r : MappingRecord),
      r ∈ sortAscBy (fun a b => strLt a.wiki b.wiki) (dedupeLoop deny allow cands [] []) →
      (cands.filter (fun c => !should_exclude_wikitext c.wiki deny allow)).find?
        (fun c => recordKey c == recordKey r) = some r) := by
  constructor
  · intro out h
    unfold generate_per_game_entries at h
    dsimp only at h
    split at h
    · exact absurd h (by simp)
    · next chosen hch =>
      have hout := (Option.some.inj h).symm
      subst hout
      have hperm := sortAscBy_perm (fun a b => strLt a.wiki b.wiki)
        (dedupeLoop deny allow
          (candidateStream sect game_slug terms lkeep ldrop qkeep qdrop chosen) [] [])
      have hpw := dedupeLoop_pairwise deny allow
        (candidateStream sect game_slug terms lkeep ldrop qkeep qdrop chosen) [] []
        (by simp) (by simp)
      exact (List.Perm.pairwise_iff (fun hab he => hab he.symm) hperm).mpr hpw
  · intro cands r hr
    have hperm := sortAscBy_perm (fun a b => strLt a.wiki b.wiki)
      (dedupeLoop deny allow cands [] [])
    have hr2 := hperm.mem_iff.mp hr
    rcases dedupeLoop_first deny allow cands [] [] (by simp) r hr2 with hl | ⟨_, hfind⟩
    · simp at hl
    · exact hfind

/-- C9 witness: a category whose only subcategory variable is dropped from
both the query and the label produces two identical candidates; the run
emits a single record and its key list is duplicate-free. -/
theorem c9_unique_mapping_keys_witness :
    generate_per_game_entries "s".toList "g".toList true [] true
        [⟨"c1".toList, "Cat".toList, "per-game".toList, false,
          [⟨"v1".toList, true, [("a".toList, "A".toList), ("b".toList, "B".toList)]⟩]⟩]
        [] [] [] [] ["v1".toList] [] ["v1".toList] =
      some [⟨"s".toList, "Cat".toList, "g".toList, "c1".toList, [], "Cat".toList, false⟩] ∧
    List.Pairwise (fun a b => recordKey a ≠ recordKey b)
      [(⟨"s".toList, "Cat".toList, "g".toList, "c1".toList, [], "Cat".toList, false⟩ :
        MappingRecord)] :=
  ⟨by rfl,
    (c9_unique_mapping_keys "s".toList "g".toList true [] true
      [⟨"c1".toList, "Cat".toList, "per-game".toList, false,
        [⟨"v1".toList, true, [("a".toList, "A".toList), ("b".toList, "B".toList)]⟩]⟩]
      [] [] [] [] ["v1".toList] [] ["v1".toList]).1
      [⟨"s".toList, "Cat".toList, "g".toList, "c1".toList, [], "Cat".toList, false⟩]
      (by rfl)⟩


/-! ## C1/C7: base replacement lemmas -/

theorem not_infix_of_mem_not_mem {c : Char} {pat s : Str} (hc : c ∈ pat) (hs : c ∉ s) :
    ¬ pat <:+: s :=
  fun hinf => hs (hinf.subset hc)

theorem leadsWith_append_sep {pat s t : Str} (h7 : '\x07' ∉ pat)
    (ht : t = [] ∨ ∃ u, t = '\x07' :: u) :
    leadsWith pat (s ++ t) = leadsWith pat s := by
  cases hb : leadsWith pat s with
  | true =>
    rw [leadsWith_iff]
    exact ((leadsWith_iff pat s).mp hb).trans (List.prefix_append s t)
  | false =>
    apply Bool.eq_false_iff.mpr
    intro hx
    rcases prefix_append_cases ((leadsWith_iff _ _).mp hx) with h1 | ⟨u, rfl, h2⟩
    · rw [(leadsWith_iff pat s).mpr h1] at hb
      exact absurd hb (by simp)
    · cases u with
      | nil =>
        simp only [List.append_nil] at hb
        rw [(leadsWith_iff s s).mpr (List.prefix_refl s)] at hb
        exact absurd hb (by simp)
      | cons a u2 =>
        have ha : a = '\x07' := by
          rcases ht with rfl | ⟨v, rfl⟩
          · exact absurd (List.eq_nil_of_prefix_nil h2) (by simp)
          · exact (List.cons_prefix_cons.mp h2).1
        subst ha
        exact h7 (by simp)

theorem strReplace_append_sep (pat rep : Str) (hp : pat ≠ []) (h7 : '\x07' ∉ pat) :
    ∀ (n : Nat) (s t : Str), s.length ≤ n → (t = [] ∨ ∃ u, t = '\x07' :: u) →
      strReplace (s ++ t) pat rep = strReplace s pat rep ++ strReplace t pat rep := by
  intro n
  induction n with
  | zero =>
    intro s t hs ht
    have : s = [] := List.length_eq_zero.mp (Nat.le_zero.mp hs)
    subst this
    rw [strReplace_nil]
    simp
  | succ n ih =>
    intro s t hs ht
    cases s with
    | nil => rw [strReplace_nil]; simp
    | cons c s2 =>
      simp only [List.length_cons] at hs
      have hpl : 1 ≤ pat.length := by
        cases pat with
        | nil => exact absurd rfl hp
        | cons _ _ => simp
      have hlw : leadsWith pat (c :: (s2 ++ t)) = leadsWith pat (c :: s2) := by
        have := @leadsWith_append_sep pat (c :: s2) t h7 ht
        simpa using this
      rw [List.cons_append, strReplace_cons pat rep hp, strReplace_cons pat rep hp, hlw]
      cases hl : leadsWith pat (c :: s2) with
      | true =>
        simp only [if_pos rfl, if_true]
        have hple : pat.length ≤ s2.length + 1 :=
          by simpa using ((leadsWith_iff _ _).mp hl).length_le
        have hdrop : (c :: (s2 ++ t)).drop pat.length =
            (c :: s2).drop pat.length ++ t := by
          rw [show (c :: (s2 ++ t)) = (c :: s2) ++ t from rfl]
          exact List.drop_append_of_le_length (by simpa using hple)
        rw [hdrop, ih ((c :: s2).drop pat.length) t
          (by simp only [List.length_drop, List.length_cons]; omega) ht]
        simp [List.append_assoc]
      | false =>
        simp only [Bool.false_eq_true, if_false]
        rw [ih s2 t (by simpa using hs) ht]
        simp

theorem not_prefix_tok {x : Str} :
    ∀ (q : Str) (t : Str), '\x07' ∉ x → '\x07' ∉ q → x ≠ q →
      (t = [] ∨ ∃ u, t = '\x07' :: u) → ¬ (x ++ ['\x07']) <+: (q ++ t) := by
  induction x with
  | nil =>
    intro q t _ hq7 hne ht h
    cases q with
    | nil => exact hne rfl
    | cons b q2 =>
      rw [List.nil_append, List.cons_append] at h
      have : '\x07' = b := (List.cons_prefix_cons.mp h).1
      exact hq7 (by simp [← this])
  | cons a x2 ih =>
    intro q t hx7 hq7 hne ht h
    cases q with
    | nil =>
      rw [List.nil_append, List.cons_append] at h
      rcases ht with rfl | ⟨u, rfl⟩
      · rw [List.prefix_nil] at h
        exact absurd h (by simp)
      · have : a = '\x07' := (List.cons_prefix_cons.mp h).1
        exact hx7 (by simp [this])
    | cons b q2 =>
      rw [List.cons_append, List.cons_append] at h
      have h2 := List.cons_prefix_cons.mp h
      have hab : a = b := h2.1
      subst hab
      have hne2 : x2 ≠ q2 := by
        intro hx
        exact hne (by rw [hx])
      exact ih q2 t (fun hc => hx7 (by simp [hc])) (fun hc => hq7 (by simp [hc])) hne2 ht h2.2

theorem strReplace_sepHead_append {s : Str} (pat2 rep t : Str) (h7 : '\x07' ∉ s) :
    strReplace (s ++ t) ('\x07' :: pat2) rep = s ++ strReplace t ('\x07' :: pat2) rep := by
  induction s with
  | nil => simp
  | cons c s2 ih =>
    have hc : c ≠ '\x07' := fun hx => h7 (by simp [hx])
    rw [List.cons_append, strReplace_cons _ _ (by simp)]
    have hlw : leadsWith ('\x07' :: pat2) (c :: (s2 ++ t)) = false := by
      simp only [leadsWith, Bool.and_eq_false_iff]
      left
      simp [beq_eq_false_iff_ne]
      exact fun hx => hc hx.symm
    rw [hlw]
    simp only [Bool.false_eq_true, if_false]
    rw [ih (fun hx => h7 (by simp [hx]))]
    rfl

/-! ## C1/C7: structure rendering lemmas -/

theorem sApp_render : ∀ (p : Str) (l : List (Str × Str)) (s2 : AltStruct),
    structStr (sAppGo p l s2) = structStr (p, l) ++ structStr s2 := by
  intro p l
  induction l generalizing p with
  | nil =>
    intro s2
    simp [sAppGo, structStr, structTail, List.append_assoc]
  | cons yq rest ih =>
    intro s2
    obtain ⟨y, q⟩ := yq
    rcases hs3 : sAppGo q rest s2 with ⟨p3, l3⟩
    have ih2 := ih q s2
    rw [hs3] at ih2
    simp only [structStr, structTail] at ih2
    simp only [sAppGo, hs3, structStr, structTail]
    simp only [List.append_assoc, List.cons_append] at ih2 ⊢
    rw [ih2]

theorem fragStruct_render (pat x : Str) (hp : pat ≠ []) :
    ∀ (fuel : Nat) (s : Str), s.length ≤ fuel →
      structStr (fragStruct pat x fuel s) = strReplace s pat (tokStr x) := by
  intro fuel
  induction fuel with
  | zero =>
    intro s hs
    have : s = [] := List.length_eq_zero.mp (Nat.le_zero.mp hs)
    subst this
    rw [strReplace_nil]
    rfl
  | succ f ih =>
    intro s hs
    cases s with
    | nil => rw [strReplace_nil]; rfl
    | cons c rest =>
      have hpl : 1 ≤ pat.length := by
        cases pat with
        | nil => exact absurd rfl hp
        | cons _ _ => simp
      rw [strReplace_cons pat _ hp]
      cases hl : leadsWith pat (c :: rest) with
      | true =>
        rcases hs3 : fragStruct pat x f ((c :: rest).drop pat.length) with ⟨p3, l3⟩
        have ih2 := ih ((c :: rest).drop pat.length)
          (by simp only [List.length_drop, List.length_cons]; simp only [List.length_cons] at hs; omega)
        rw [hs3] at ih2
        simp only [fragStruct, hl, if_pos rfl, if_true, hs3]
        simp only [structStr, structTail] at ih2 ⊢
        rw [show tokStr x = '\x07' :: (x ++ ['\x07']) from rfl]
        simp only [List.nil_append, List.cons_append, List.append_assoc] at ih2 ⊢
        rw [ih2]
        rfl
      | false =>
        rcases hs3 : fragStruct pat x f rest with ⟨p3, l3⟩
        have ih2 := ih rest (by simpa using hs)
        rw [hs3] at ih2
        simp only [fragStruct, hl, Bool.false_eq_true, if_false, hs3]
        simp only [structStr, structTail] at ih2 ⊢
        rw [List.cons_append, ih2]


/-! ## C1/C7: placeholder-token facts -/

theorem digitChar_tokChar : ∀ n, tokChar (digitChar n) = true := by
  intro n
  unfold digitChar
  split <;> rfl

theorem natCharsGo_tokChar : ∀ (f n : Nat) (c : Char), c ∈ natCharsGo f n → tokChar c = true := by
  intro f
  induction f with
  | zero => intro n c hc; simp [natCharsGo] at hc
  | succ f ih =>
    intro n c hc
    simp only [natCharsGo] at hc
    split at hc
    · have : c = digitChar n := by simpa using hc
      subst this
      exact digitChar_tokChar n
    · rcases List.mem_append.mp hc with h1 | h2
      · exact ih _ _ h1
      · have : c = digitChar (n % 10) := by simpa using h2
        subst this
        exact digitChar_tokChar _

theorem natChars_tokChar {n : Nat} {c : Char} (hc : c ∈ natChars n) : tokChar c = true :=
  natCharsGo_tokChar _ _ _ hc

theorem protInner_tokChar : ∀ (i : Nat) (c : Char), c ∈ protInner i → tokChar c = true := by
  intro i c hc
  rcases List.mem_append.mp hc with h1 | h2
  · have hall : ∀ c ∈ "WIKITERM_TOKEN_PROT_".toList, tokChar c = true := by decide
    exact hall c h1
  · exact natChars_tokChar h2

theorem insInner_tokChar : ∀ (j : Nat) (c : Char), c ∈ insInner j → tokChar c = true := by
  intro j c hc
  rcases List.mem_append.mp hc with h1 | h2
  · have hall : ∀ c ∈ "WIKITERM_TOKEN_INS_".toList, tokChar c = true := by decide
    exact hall c h1
  · exact natChars_tokChar h2

theorem tokChar_x07 : tokChar '\x07' = false := by decide

theorem protInner_x07 (i : Nat) : '\x07' ∉ protInner i := by
  intro h
  have := protInner_tokChar i _ h
  rw [tokChar_x07] at this
  exact absurd this (by simp)

theorem insInner_x07 (j : Nat) : '\x07' ∉ insInner j := by
  intro h
  have := insInner_tokChar j _ h
  rw [tokChar_x07] at this
  exact absurd this (by simp)

theorem magic_prefix_protInner (i : Nat) : "WIKITERM_TOKEN".toList <+: protInner i :=
  List.IsPrefix.trans (by decide) (List.prefix_append _ _)

theorem magic_prefix_insInner (j : Nat) : "WIKITERM_TOKEN".toList <+: insInner j :=
  List.IsPrefix.trans (by decide) (List.prefix_append _ _)

theorem natCharsGo_eq : ∀ (f n : Nat), n < f → natCharsGo f n = natChars n := by
  intro f
  induction f using Nat.strong_induction_on with
  | _ f ih =>
    intro n h
    cases f with
    | zero => omega
    | succ f2 =>
      by_cases h10 : n < 10
      · simp [natCharsGo, natChars, h10]
      · have hrec : n / 10 < n := Nat.div_lt_self (by omega) (by omega)
        rw [show natCharsGo (f2 + 1) n = natCharsGo f2 (n / 10) ++ [digitChar (n % 10)] from by
          simp [natCharsGo, h10]]
        rw [show natChars n = natCharsGo n (n / 10) ++ [digitChar (n % 10)] from by
          simp [natChars, natCharsGo, h10]]
        rw [ih f2 (by omega) (n / 10) (by omega), ih n (by omega) (n / 10) (by omega)]

theorem natChars_ne_nil (n : Nat) : natChars n ≠ [] := by
  unfold natChars natCharsGo
  split <;> simp

theorem digitChar_toNat : ∀ n, n < 10 → (digitChar n).toNat = 48 + n := by
  intro n h
  interval_cases n <;> rfl

theorem digitChar_inj {m n : Nat} (hm : m < 10) (hn : n < 10)
    (h : digitChar m = digitChar n) : m = n := by
  have := congrArg Char.toNat h
  rw [digitChar_toNat m hm, digitChar_toNat n hn] at this
  omega

theorem natChars_inj : ∀ m n : Nat, natChars m = natChars n → m = n := by
  intro m
  induction m using Nat.strong_induction_on with
  | _ m ih =>
    intro n h
    by_cases hm : m < 10
    · by_cases hn : n < 10
      · have h2 : [digitChar m] = [digitChar n] := by
          rw [show natChars m = [digitChar m] from by simp [natChars, natCharsGo, hm],
            show natChars n = [digitChar n] from by simp [natChars, natCharsGo, hn]] at h
          exact h
        exact digitChar_inj hm hn (by simpa using h2)
      · exfalso
        rw [show natChars m = [digitChar m] from by simp [natChars, natCharsGo, hm],
          show natChars n = natCharsGo n (n / 10) ++ [digitChar (n % 10)] from by
            simp [natChars, natCharsGo, hn]] at h
        rw [natCharsGo_eq n (n / 10) (Nat.div_lt_self (by omega) (by omega))] at h
        have h1 : ([] : Str) ++ [digitChar m] =
            natChars (n / 10) ++ [digitChar (n % 10)] := by simpa using h
        have h2 := List.append_inj' h1 (by simp)
        exact natChars_ne_nil _ h2.1.symm
    · by_cases hn : n < 10
      · exfalso
        rw [show natChars n = [digitChar n] from by simp [natChars, natCharsGo, hn],
          show natChars m = natCharsGo m (m / 10) ++ [digitChar (m % 10)] from by
            simp [natChars, natCharsGo, hm]] at h
        rw [natCharsGo_eq m (m / 10) (Nat.div_lt_self (by omega) (by omega))] at h
        have h1 : natChars (m / 10) ++ [digitChar (m % 10)] =
            ([] : Str) ++ [digitChar n] := by simpa using h
        have h2 := List.append_inj' h1 (by simp)
        exact natChars_ne_nil _ h2.1
      · rw [show natChars m = natCharsGo m (m / 10) ++ [digitChar (m % 10)] from by
            simp [natChars, natCharsGo, hm],
          show natChars n = natCharsGo n (n / 10) ++ [digitChar (n % 10)] from by
            simp [natChars, natCharsGo, hn]] at h
        rw [natCharsGo_eq m (m / 10) (Nat.div_lt_self (by omega) (by omega)),
          natCharsGo_eq n (n / 10) (Nat.div_lt_self (by omega) (by omega))] at h
        have h2 := List.append_inj' h (by simp)
        have hdiv := ih (m / 10) (Nat.div_lt_self (by omega) (by omega)) (n / 10) h2.1
        have hmod : m % 10 = n % 10 :=
          digitChar_inj (Nat.mod_lt _ (by omega)) (Nat.mod_lt _ (by omega))
            (by simpa using h2.2)
        omega

theorem protInner_inj {i j : Nat} (h : protInner i = protInner j) : i = j := by
  unfold protInner at h
  exact natChars_inj i j (List.append_cancel_left h)

theorem protInner_ne_insInner (i j : Nat) : protInner i ≠ insInner j := by
  intro h
  unfold protInner insInner at h
  rw [show "WIKITERM_TOKEN_PROT_".toList =
      "WIKITERM_TOKEN_".toList ++ "PROT_".toList from by decide,
    show "WIKITERM_TOKEN_INS_".toList =
      "WIKITERM_TOKEN_".toList ++ "INS_".toList from by decide] at h
  rw [List.append_assoc, List.append_assoc] at h
  have h2 := List.append_cancel_left h
  have h3 := congrArg (fun l => l.headD ' ') h2
  simp at h3

theorem leadsWith_prot_protInner (i : Nat) :
    leadsWith "WIKITERM_TOKEN_PROT_".toList (protInner i) = true := by
  rw [leadsWith_iff]
  exact List.prefix_append _ _

theorem leadsWith_prot_insInner (j : Nat) :
    leadsWith "WIKITERM_TOKEN_PROT_".toList (insInner j) = false := rfl


/-! ## C1/C7: structure-operation properties -/

theorem fragStruct_pieces (pat x : Str) :
    ∀ (fuel : Nat) (s : Str),
      (fragStruct pat x fuel s).1 <+: s ∧
        ∀ pr ∈ (fragStruct pat x fuel s).2, pr.1 = x ∧ pr.2 <:+: s := by
  intro fuel
  induction fuel with
  | zero =>
    intro s
    cases s <;> simp [fragStruct]
  | succ f ih =>
    intro s
    cases s with
    | nil => simp [fragStruct]
    | cons c rest =>
      by_cases hl : leadsWith pat (c :: rest) = true
      · rcases hs3 : fragStruct pat x f ((c :: rest).drop pat.length) with ⟨p3, l3⟩
        have ih2 := ih ((c :: rest).drop pat.length)
        rw [hs3] at ih2
        simp only [fragStruct, hl, if_true, hs3]
        refine ⟨List.nil_prefix, ?_⟩
        intro pr hpr
        rcases List.mem_cons.mp hpr with rfl | hm
        · exact ⟨rfl, ih2.1.isInfix.trans (List.drop_suffix _ _).isInfix⟩
        · have := ih2.2 pr hm
          exact ⟨this.1, this.2.trans (List.drop_suffix _ _).isInfix⟩
      · rcases hs3 : fragStruct pat x f rest with ⟨p3, l3⟩
        have ih2 := ih rest
        rw [hs3] at ih2
        have hlf : leadsWith pat (c :: rest) = false := Bool.eq_false_iff.mpr hl
        simp only [fragStruct, hlf, Bool.false_eq_true, if_false, hs3]
        refine ⟨List.cons_prefix_cons.mpr ⟨rfl, ih2.1⟩, ?_⟩
        intro pr hpr
        have := ih2.2 pr hpr
        exact ⟨this.1, List.infix_cons_iff.mpr (Or.inr this.2)⟩

theorem sAppGo_seps : ∀ (p : Str) (l : List (Str × Str)) (s2 : AltStruct),
    (sAppGo p l s2).2.map Prod.fst = l.map Prod.fst ++ s2.2.map Prod.fst := by
  intro p l
  induction l generalizing p with
  | nil => intro s2; simp [sAppGo]
  | cons yq rest ih =>
    intro s2
    obtain ⟨y, q⟩ := yq
    rcases hs3 : sAppGo q rest s2 with ⟨p3, l3⟩
    have ih2 := ih q s2
    rw [hs3] at ih2
    simp only [sAppGo, hs3, List.map_cons, List.cons_append]
    rw [ih2]

theorem sAppGo_pieces (P : Str → Prop) :
    ∀ (p : Str) (l : List (Str × Str)) (pairs2 : List (Str × Str)),
      P p → (∀ pr ∈ l, P pr.2) → (∀ pr ∈ pairs2, P pr.2) →
      P (sAppGo p l ([], pairs2)).1 ∧ ∀ pr ∈ (sAppGo p l ([], pairs2)).2, P pr.2 := by
  intro p l
  induction l generalizing p with
  | nil =>
    intro pairs2 hp _ h2
    simp only [sAppGo]
    exact ⟨by simpa using hp, h2⟩
  | cons yq rest ih =>
    intro pairs2 hp hl h2
    obtain ⟨y, q⟩ := yq
    rcases hs3 : sAppGo q rest ([], pairs2) with ⟨p3, l3⟩
    have ih2 := ih q pairs2 (hl (y, q) (by simp)) (fun pr hpr => hl pr (by simp [hpr])) h2
    rw [hs3] at ih2
    simp only [sAppGo, hs3]
    refine ⟨hp, ?_⟩
    intro pr hpr
    rcases List.mem_cons.mp hpr with rfl | hm
    · exact ih2.1
    · exact ih2.2 pr hm

theorem stepA_render (pat x : Str) (hp : pat ≠ []) (h7 : '\x07' ∉ pat) :
    ∀ (pairs : List (Str × Str)) (p : Str),
      (∀ pr ∈ pairs, ¬ pat <:+: pr.1) →
      strReplace (structStr (p, pairs)) pat (tokStr x) =
        structStr (stepA pat x p pairs) := by
  intro pairs
  induction pairs with
  | nil =>
    intro p _
    simp only [structStr, structTail, List.append_nil, stepA]
    exact (fragStruct_render pat x hp p.length p (le_refl _)).symm
  | cons yq rest ih =>
    intro p hseps
    obtain ⟨y, q⟩ := yq
    have hy : ¬ pat <:+: y := hseps (y, q) (by simp)
    rcases hs3 : stepA pat x q rest with ⟨p3, l3⟩
    have ih2 := ih q (fun pr hpr => hseps pr (by simp [hpr]))
    rw [hs3] at ih2
    have hshape : structStr (p, (y, q) :: rest) =
        p ++ ('\x07' :: (y ++ '\x07' :: structStr (q, rest))) := by
      simp [structStr, structTail, List.append_assoc]
    rw [hshape]
    rw [strReplace_append_sep pat (tokStr x) hp h7 p.length p _ (le_refl _)
      (Or.inr ⟨_, rfl⟩)]
    rw [strReplace_cons pat (tokStr x) hp]
    have hlw : leadsWith pat ('\x07' :: (y ++ '\x07' :: structStr (q, rest))) = false := by
      apply Bool.eq_false_iff.mpr
      intro hx
      have := (leadsWith_iff _ _).mp hx
      cases pat with
      | nil => exact hp rfl
      | cons a pat2 =>
        have := (List.cons_prefix_cons.mp this).1
        exact h7 (by simp [this])
    rw [hlw]
    simp only [Bool.false_eq_true, if_false]
    rw [strReplace_append_sep pat (tokStr x) hp h7 y.length y _ (le_refl _)
      (Or.inr ⟨_, rfl⟩)]
    rw [strReplace_of_not_contains (tokStr x) hy]
    rw [strReplace_cons pat (tokStr x) hp]
    have hlw2 : leadsWith pat ('\x07' :: structStr (q, rest)) = false := by
      apply Bool.eq_false_iff.mpr
      intro hx
      have := (leadsWith_iff _ _).mp hx
      cases pat with
      | nil => exact hp rfl
      | cons a pat2 =>
        have := (List.cons_prefix_cons.mp this).1
        exact h7 (by simp [this])
    rw [hlw2]
    simp only [Bool.false_eq_true, if_false]
    rw [ih2]
    -- assemble: LHS pieces = structStr (stepA pat x p ((y,q)::rest))
    simp only [stepA, hs3]
    rw [show sApp (fragStruct pat x p.length p) ([], (y, p3) :: l3) =
        sAppGo (fragStruct pat x p.length p).1 (fragStruct pat x p.length p).2
          ([], (y, p3) :: l3) from rfl]
    rw [sApp_render]
    rw [show ((fragStruct pat x p.length p).1, (fragStruct pat x p.length p).2) =
      fragStruct pat x p.length p from rfl]
    rw [fragStruct_render pat x hp p.length p (le_refl _)]
    simp [structStr, structTail, List.append_assoc]


theorem stepA_seps (pat x : Str) :
    ∀ (pairs : List (Str × Str)) (p : Str) (y2 : Str),
      y2 ∈ (stepA pat x p pairs).2.map Prod.fst →
      y2 = x ∨ y2 ∈ pairs.map Prod.fst := by
  intro pairs
  induction pairs with
  | nil =>
    intro p y2 hy
    simp only [stepA] at hy
    rcases List.mem_map.mp hy with ⟨pr, hpr, rfl⟩
    exact Or.inl ((fragStruct_pieces pat x p.length p).2 pr hpr).1
  | cons yq rest ih =>
    intro p y2 hy
    obtain ⟨y, q⟩ := yq
    rcases hs3 : stepA pat x q rest with ⟨p3, l3⟩
    simp only [stepA, hs3] at hy
    rw [show sApp (fragStruct pat x p.length p) ([], (y, p3) :: l3) =
        sAppGo (fragStruct pat x p.length p).1 (fragStruct pat x p.length p).2
          ([], (y, p3) :: l3) from rfl] at hy
    rw [sAppGo_seps] at hy
    rcases List.mem_append.mp hy with h1 | h2
    · rcases List.mem_map.mp h1 with ⟨pr, hpr, rfl⟩
      exact Or.inl ((fragStruct_pieces pat x p.length p).2 pr hpr).1
    · simp only [List.map_cons] at h2
      rcases List.mem_cons.mp h2 with rfl | h3
      · exact Or.inr (by simp)
      · rcases ih q y2 (by rw [hs3]; exact h3) with h4 | h4
        · exact Or.inl h4
        · exact Or.inr (by simp [h4])

theorem stepA_protSeq (pat x : Str) (hx : leadsWith "WIKITERM_TOKEN_PROT_".toList x = false) :
    ∀ (pairs : List (Str × Str)) (p : Str),
      ((stepA pat x p pairs).2.map Prod.fst).filter
          (leadsWith "WIKITERM_TOKEN_PROT_".toList) =
        (pairs.map Prod.fst).filter (leadsWith "WIKITERM_TOKEN_PROT_".toList) := by
  intro pairs
  induction pairs with
  | nil =>
    intro p
    simp only [stepA, List.map_nil, List.filter_nil]
    rw [List.filter_eq_nil_iff.mpr]
    intro a ha
    rcases List.mem_map.mp ha with ⟨pr, hpr, rfl⟩
    rw [((fragStruct_pieces pat x p.length p).2 pr hpr).1, hx]
    simp
  | cons yq rest ih =>
    intro p
    obtain ⟨y, q⟩ := yq
    rcases hs3 : stepA pat x q rest with ⟨p3, l3⟩
    have ih2 := ih q
    rw [hs3] at ih2
    simp only [stepA, hs3]
    rw [show sApp (fragStruct pat x p.length p) ([], (y, p3) :: l3) =
        sAppGo (fragStruct pat x p.length p).1 (fragStruct pat x p.length p).2
          ([], (y, p3) :: l3) from rfl]
    rw [sAppGo_seps, List.filter_append]
    have hfrag : ((fragStruct pat x p.length p).2.map Prod.fst).filter
        (leadsWith "WIKITERM_TOKEN_PROT_".toList) = [] := by
      rw [List.filter_eq_nil_iff]
      intro a ha
      rcases List.mem_map.mp ha with ⟨pr, hpr, rfl⟩
      rw [((fragStruct_pieces pat x p.length p).2 pr hpr).1, hx]
      simp
    rw [hfrag, List.nil_append]
    simp only [List.map_cons, List.filter_cons]
    rw [ih2]

theorem stepA_pieces (P : Str → Prop) (Pmono : ∀ u v, u <:+: v → P v → P u)
    (pat x : Str) :
    ∀ (pairs : List (Str × Str)) (p : Str),
      P p → (∀ pr ∈ pairs, P pr.2) →
      P (stepA pat x p pairs).1 ∧ ∀ pr ∈ (stepA pat x p pairs).2, P pr.2 := by
  intro pairs
  induction pairs with
  | nil =>
    intro p hp _
    simp only [stepA]
    constructor
    · exact Pmono _ _ (fragStruct_pieces pat x p.length p).1.isInfix hp
    · intro pr hpr
      exact Pmono _ _ ((fragStruct_pieces pat x p.length p).2 pr hpr).2 hp
  | cons yq rest ih =>
    intro p hp hl
    obtain ⟨y, q⟩ := yq
    rcases hs3 : stepA pat x q rest with ⟨p3, l3⟩
    have ih2 := ih q (hl (y, q) (by simp)) (fun pr hpr => hl pr (by simp [hpr]))
    rw [hs3] at ih2
    simp only [stepA, hs3]
    rw [show sApp (fragStruct pat x p.length p) ([], (y, p3) :: l3) =
        sAppGo (fragStruct pat x p.length p).1 (fragStruct pat x p.length p).2
          ([], (y, p3) :: l3) from rfl]
    apply sAppGo_pieces P
    · exact Pmono _ _ (fragStruct_pieces pat x p.length p).1.isInfix hp
    · intro pr hpr
      exact Pmono _ _ ((fragStruct_pieces pat x p.length p).2 pr hpr).2 hp
    · intro pr hpr
      rcases List.mem_cons.mp hpr with rfl | hm
      · exact ih2.1
      · exact ih2.2 pr hm


theorem structTail_shape (l : List (Str × Str)) :
    structTail l = [] ∨ ∃ u, structTail l = '\x07' :: u := by
  cases l with
  | nil => exact Or.inl rfl
  | cons yq rest => exact Or.inr ⟨_, rfl⟩

theorem stepT_render (x rep : Str) (hx : x ≠ []) (hx7 : '\x07' ∉ x) (hrep7 : '\x07' ∉ rep) :
    ∀ (pairs : List (Str × Str)) (p : Str), '\x07' ∉ p →
      (∀ pr ∈ pairs, '\x07' ∉ pr.1 ∧ '\x07' ∉ pr.2 ∧ pr.2 ≠ x) →
      strReplace (structStr (p, pairs)) (tokStr x) rep =
        structStr (stepT x rep p pairs) := by
  intro pairs
  induction pairs with
  | nil =>
    intro p hp _
    simp only [structStr, structTail, List.append_nil, stepT]
    exact strReplace_of_not_contains rep
      (not_infix_of_mem_not_mem (show '\x07' ∈ tokStr x by simp [tokStr]) hp)
  | cons yq rest ih =>
    intro p hp hl
    obtain ⟨y, q⟩ := yq
    have hy7 : '\x07' ∉ y := (hl (y, q) (by simp)).1
    have hq7 : '\x07' ∉ q := (hl (y, q) (by simp)).2.1
    have hqx : q ≠ x := (hl (y, q) (by simp)).2.2
    rcases hs3 : stepT x rep q rest with ⟨p3, l3⟩
    have ih2 := ih q hq7 (fun pr hpr => hl pr (by simp [hpr]))
    rw [hs3] at ih2
    have hshape : structStr (p, (y, q) :: rest) =
        p ++ ('\x07' :: (y ++ '\x07' :: structStr (q, rest))) := by
      simp [structStr, structTail, List.append_assoc]
    rw [hshape]
    rw [show tokStr x = '\x07' :: (x ++ ['\x07']) from rfl]
    rw [strReplace_sepHead_append (x ++ ['\x07']) rep _ hp]
    by_cases hyx : y = x
    · subst hyx
      rw [strReplace_cons _ _ (by simp)]
      have hlw : leadsWith ('\x07' :: (y ++ ['\x07']))
          ('\x07' :: (y ++ '\x07' :: structStr (q, rest))) = true := by
        rw [leadsWith_iff]
        exact ⟨structStr (q, rest), by simp⟩
      rw [hlw]
      simp only [if_true]
      have hdrop : ('\x07' :: (y ++ '\x07' :: structStr (q, rest))).drop
          ('\x07' :: (y ++ ['\x07'])).length = structStr (q, rest) := by
        rw [show ('\x07' :: (y ++ '\x07' :: structStr (q, rest))) =
            ('\x07' :: (y ++ ['\x07'])) ++ structStr (q, rest) from by simp]
        exact List.drop_left _ _
      rw [hdrop]
      rw [show ('\x07' :: (y ++ ['\x07'])) = tokStr y from rfl, ih2]
      simp only [stepT, hs3, if_pos rfl]
      simp [structStr, structTail, List.append_assoc]
    · rw [strReplace_cons _ _ (by simp)]
      have hlw : leadsWith ('\x07' :: (x ++ ['\x07']))
          ('\x07' :: (y ++ '\x07' :: structStr (q, rest))) = false := by
        apply Bool.eq_false_iff.mpr
        intro hc
        have h2 := (List.cons_prefix_cons.mp ((leadsWith_iff _ _).mp hc)).2
        exact not_prefix_tok y ('\x07' :: structStr (q, rest)) hx7 hy7
          (fun he => hyx he.symm) (Or.inr ⟨_, rfl⟩) h2
      rw [hlw]
      simp only [Bool.false_eq_true, if_false]
      rw [strReplace_sepHead_append (x ++ ['\x07']) rep _ hy7]
      rw [strReplace_cons _ _ (by simp)]
      have hlw2 : leadsWith ('\x07' :: (x ++ ['\x07']))
          ('\x07' :: structStr (q, rest)) = false := by
        apply Bool.eq_false_iff.mpr
        intro hc
        have h2 := (List.cons_prefix_cons.mp ((leadsWith_iff _ _).mp hc)).2
        have hshape2 : structStr (q, rest) = q ++ structTail rest := rfl
        rw [hshape2] at h2
        exact not_prefix_tok q (structTail rest) hx7 hq7
          (fun he => hqx he.symm) (structTail_shape rest) h2
      rw [hlw2]
      simp only [Bool.false_eq_true, if_false]
      rw [show ('\x07' :: (x ++ ['\x07'])) = tokStr x from rfl, ih2]
      simp only [stepT, hs3]
      rw [if_neg hyx]
      simp [structStr, structTail, List.append_assoc]

theorem stepT_noMatch (x rep : Str) :
    ∀ (pairs : List (Str × Str)) (p : Str),
      (∀ pr ∈ pairs, pr.1 ≠ x) → stepT x rep p pairs = (p, pairs) := by
  intro pairs
  induction pairs with
  | nil => intro p _; rfl
  | cons yq rest ih =>
    intro p h
    obtain ⟨y, q⟩ := yq
    simp only [stepT, ih q (fun pr hpr => h pr (by simp [hpr]))]
    rw [if_neg (h (y, q) (by simp))]

theorem stepT_seps (x rep : Str) :
    ∀ (pairs : List (Str × Str)) (p : Str),
      (stepT x rep p pairs).2.map Prod.fst =
        (pairs.map Prod.fst).filter (fun z => z ≠ x) := by
  intro pairs
  induction pairs with
  | nil => intro p; rfl
  | cons yq rest ih =>
    intro p
    obtain ⟨y, q⟩ := yq
    rcases hs3 : stepT x rep q rest with ⟨p3, l3⟩
    have ih2 := ih q
    rw [hs3] at ih2
    simp only at ih2
    by_cases hyx : y = x
    · have hL : (stepT x rep p ((y, q) :: rest)).2 = l3 := by
        simp only [stepT, hs3, if_pos hyx]
      have hR : ((y, q) :: rest).map Prod.fst = y :: rest.map Prod.fst := rfl
      rw [hL, ih2, hR, List.filter_cons]
      simp [hyx]
    · have hL : (stepT x rep p ((y, q) :: rest)).2 = (y, p3) :: l3 := by
        simp only [stepT, hs3, if_neg hyx]
      have hR : ((y, q) :: rest).map Prod.fst = y :: rest.map Prod.fst := rfl
      rw [hL, hR, List.filter_cons, List.map_cons, ih2]
      simp [hyx]

theorem stepT_pieces (P : Str → Prop) (x rep : Str)
    (Pjoin : ∀ u v, P u → P v → P (u ++ rep ++ v)) :
    ∀ (pairs : List (Str × Str)) (p : Str),
      P p → (∀ pr ∈ pairs, P pr.2) →
      P (stepT x rep p pairs).1 ∧ ∀ pr ∈ (stepT x rep p pairs).2, P pr.2 := by
  intro pairs
  induction pairs with
  | nil => intro p hp _; exact ⟨hp, by simp [stepT]⟩
  | cons yq rest ih =>
    intro p hp hl
    obtain ⟨y, q⟩ := yq
    rcases hs3 : stepT x rep q rest with ⟨p3, l3⟩
    have ih2 := ih q (hl (y, q) (by simp)) (fun pr hpr => hl pr (by simp [hpr]))
    rw [hs3] at ih2
    simp only [stepT, hs3]
    by_cases hyx : y = x
    · rw [if_pos hyx]
      exact ⟨Pjoin p p3 hp ih2.1, ih2.2⟩
    · rw [if_neg hyx]
      refine ⟨hp, ?_⟩
      intro pr hpr
      rcases List.mem_cons.mp hpr with rfl | hm
      · exact ih2.1
      · exact ih2.2 pr hm


/-! ## C1/C7: token and filter support lemmas -/

theorem insInner_inj {i j : Nat} (h : insInner i = insInner j) : i = j := by
  unfold insInner at h
  exact natChars_inj i j (List.append_cancel_left h)

theorem protInner_ne_nil (i : Nat) : protInner i ≠ [] := by
  simp [protInner]

theorem insInner_ne_nil (j : Nat) : insInner j ≠ [] := by
  simp [insInner]

theorem plain_ne_protInner {text u : Str}
    (hmagic : ¬ "WIKITERM_TOKEN".toList <:+: text)
    (hok : u <:+: text ∨ ∃ c ∈ u, tokChar c = false) (i : Nat) : u ≠ protInner i := by
  rintro rfl
  rcases hok with h1 | ⟨c, hc, hcf⟩
  · exact hmagic ((magic_prefix_protInner i).isInfix.trans h1)
  · have := protInner_tokChar i c hc
    simp [hcf] at this

theorem plain_ne_insInner {text u : Str}
    (hmagic : ¬ "WIKITERM_TOKEN".toList <:+: text)
    (hok : u <:+: text ∨ ∃ c ∈ u, tokChar c = false) (j : Nat) : u ≠ insInner j := by
  rintro rfl
  rcases hok with h1 | ⟨c, hc, hcf⟩
  · exact hmagic ((magic_prefix_insInner j).isInfix.trans h1)
  · have := insInner_tokChar j c hc
    simp [hcf] at this

theorem infix_x07_free {text u : Str} (h7 : '\x07' ∉ text) (hu : u <:+: text) :
    '\x07' ∉ u :=
  fun hc => h7 (hu.subset hc)

theorem not_infix_inner_of_special {t : Str} (c : Char) (hc : c ∈ t)
    (hcf : tokChar c = false) :
    (∀ n, ¬ t <:+: protInner n) ∧ (∀ n, ¬ t <:+: insInner n) := by
  constructor
  · intro n hinf
    have := protInner_tokChar n c (hinf.subset hc)
    simp [hcf] at this
  · intro n hinf
    have := insInner_tokChar n c (hinf.subset hc)
    simp [hcf] at this

theorem filter_protSeq_of_ne {x : Str}
    (hx : leadsWith "WIKITERM_TOKEN_PROT_".toList x = false) :
    ∀ l : List Str,
      (l.filter (fun z => z ≠ x)).filter (leadsWith "WIKITERM_TOKEN_PROT_".toList) =
        l.filter (leadsWith "WIKITERM_TOKEN_PROT_".toList) := by
  intro l
  induction l with
  | nil => rfl
  | cons y rest ih =>
    by_cases hyx : y = x
    · have h1 : List.filter (fun z => decide (z ≠ x)) (y :: rest) =
          List.filter (fun z => decide (z ≠ x)) rest := by
        rw [List.filter_cons]
        simp [hyx]
      rw [h1, ih, List.filter_cons, hyx, hx]
      simp
    · have h1 : List.filter (fun z => decide (z ≠ x)) (y :: rest) =
          y :: List.filter (fun z => decide (z ≠ x)) rest := by
        rw [List.filter_cons]
        simp [hyx]
      rw [h1, List.filter_cons, List.filter_cons, ih]

theorem filter_protSeq_all_prot : ∀ l : List Str, (∀ y ∈ l, ∃ i, y = protInner i) →
    l.filter (leadsWith "WIKITERM_TOKEN_PROT_".toList) = l := by
  intro l
  induction l with
  | nil => intro h; rfl
  | cons y rest ih =>
    intro h
    obtain ⟨i, rfl⟩ := h y (by simp)
    rw [List.filter_cons, leadsWith_prot_protInner i]
    simp only [if_true]
    rw [ih (fun z hz => h z (by simp [hz]))]

/-! ## C1/C7: interleaving lemmas -/

theorem segStr_interleave : ∀ (l : List (Str × Str)) (p : Str),
    segStr (p, l) = interleave (p :: l.map Prod.snd) (l.map Prod.fst) := by
  intro l
  induction l with
  | nil => intro p; simp [segStr, segTail, interleave]
  | cons yq rest ih =>
    intro p
    obtain ⟨y, q⟩ := yq
    show p ++ ((y ++ q) ++ segTail rest) =
      (p ++ y) ++ interleave (q :: rest.map Prod.snd) (rest.map Prod.fst)
    rw [← ih q]
    show p ++ ((y ++ q) ++ segTail rest) = (p ++ y) ++ (q ++ segTail rest)
    simp [List.append_assoc]

theorem interleave_append_head (sps : List Str) (a b : Str) (ps : List Str) :
    interleave ((a ++ b) :: ps) sps = a ++ interleave (b :: ps) sps := by
  cases sps with
  | nil => simp [interleave]
  | cons sp spr => simp [interleave]

theorem interleave_flatten (f : Str → Str) :
    ∀ (l : List (Str × Str)) (p : Str),
      p ++ (l.map (fun lq => lq.1 ++ f lq.2)).flatten =
        interleave (p :: l.map (fun lq => f lq.2)) (l.map Prod.fst) := by
  intro l
  induction l with
  | nil => intro p; simp [interleave]
  | cons yq rest ih =>
    intro p
    obtain ⟨y, q⟩ := yq
    simp only [List.map_cons, List.flatten_cons, interleave]
    rw [← ih (f q)]
    simp [List.append_assoc]

theorem tokenizePairs_map_fst : ∀ (l : List (Str × Str)) (i : Nat),
    (tokenizePairs i l).map Prod.fst =
      (List.range l.length).map (fun t => protInner (i + t)) := by
  intro l
  induction l with
  | nil => intro i; rfl
  | cons yq rest ih =>
    intro i
    obtain ⟨y, q⟩ := yq
    simp only [tokenizePairs, List.map_cons, List.length_cons]
    rw [List.range_succ_eq_map, List.map_cons, List.map_map, ih (i + 1)]
    refine congrArg₂ List.cons (congrArg protInner (by omega)) ?_
    apply List.map_congr_left
    intro a _
    simp only [Function.comp_apply]
    exact congrArg protInner (by omega)

theorem tokenizePairs_map_snd : ∀ (l : List (Str × Str)) (i : Nat),
    (tokenizePairs i l).map Prod.snd = l.map Prod.snd := by
  intro l
  induction l with
  | nil => intro i; rfl
  | cons yq rest ih =>
    intro i
    obtain ⟨y, q⟩ := yq
    simp only [tokenizePairs, List.map_cons]
    rw [ih (i + 1)]

/-! ## C1/C7: scanner invariants -/

theorem scanOK_nil (pre : Str) : ScanOK pre [] (pre, []) := by
  refine ⟨by simp [segStr, segTail], ⟨[], List.nil_prefix, by simp⟩, by simp⟩

theorem scanOK_advance {rest : Str} {res : AltStruct} (pre : Str) (c : Char)
    (h : ScanOK (pre ++ [c]) rest res) : ScanOK pre (c :: rest) res := by
  obtain ⟨h1, ⟨u, hu, hres⟩, h3⟩ := h
  refine ⟨?_, ⟨c :: u, List.cons_prefix_cons.mpr ⟨rfl, hu⟩, ?_⟩, ?_⟩
  · rw [h1, List.append_assoc]
    rfl
  · rw [hres, List.append_assoc]
    rfl
  · intro pr hpr
    obtain ⟨ha, hb, hc2⟩ := h3 pr hpr
    exact ⟨List.infix_cons ha, hb, List.infix_cons hc2⟩

theorem scanOK_match {s : Str} {n : Nat} {out : AltStruct} (pre : Str)
    (hout : ScanOK [] (s.drop n) out)
    (hsp : ∃ ch ∈ s.take n, tokChar ch = false) :
    ScanOK pre s (pre, (s.take n, out.1) :: out.2) := by
  obtain ⟨h1, ⟨u, hu, hres⟩, h3⟩ := hout
  rw [List.nil_append] at hres h1
  refine ⟨?_, ⟨[], List.nil_prefix, by simp⟩, ?_⟩
  · show pre ++ ((s.take n ++ out.1) ++ segTail out.2) = pre ++ s
    rw [List.append_assoc (s.take n) out.1 (segTail out.2),
      show out.1 ++ segTail out.2 = segStr out from rfl, h1, List.take_append_drop]
  · intro pr hpr
    rcases List.mem_cons.mp hpr with rfl | hm
    · refine ⟨(List.take_prefix n s).isInfix, hsp, ?_⟩
      rw [hres]
      exact hu.isInfix.trans (List.drop_suffix n s).isInfix
    · obtain ⟨ha, hb, hc2⟩ := h3 pr hm
      exact ⟨ha.trans (List.drop_suffix n s).isInfix, hb,
        hc2.trans (List.drop_suffix n s).isInfix⟩

theorem protScanGo_scanOK : ∀ (fuel : Nat) (s buf : Str), s.length ≤ fuel →
    ScanOK buf.reverse s (protScanGo fuel s buf) := by
  intro fuel
  induction fuel with
  | zero =>
    intro s buf hs
    have : s = [] := List.length_eq_zero.mp (Nat.le_zero.mp hs)
    subst this
    exact scanOK_nil buf.reverse
  | succ fuel ih =>
    intro s buf hs
    cases s with
    | nil => exact scanOK_nil buf.reverse
    | cons c rest =>
      have hlen : rest.length ≤ fuel := by
        simp only [List.length_cons] at hs
        omega
      by_cases h1 : leadsWith "[[".toList (c :: rest) = true
      · rcases hf : findSubFrom ((c :: rest).drop 2) "]]".toList with _ | d
        · have hres : protScanGo (fuel + 1) (c :: rest) buf =
              protScanGo fuel rest (c :: buf) := by
            simp only [protScanGo, h1, if_true, hf]
          rw [hres]
          have h2 := ih rest (c :: buf) hlen
          rw [List.reverse_cons] at h2
          exact scanOK_advance buf.reverse c h2
        · have hb : ((c :: rest).drop (2 + d + 2)).length ≤ fuel := by
            rw [List.length_drop]
            simp only [List.length_cons]
            omega
          have hout := ih ((c :: rest).drop (2 + d + 2)) [] hb
          rw [List.reverse_nil] at hout
          have hc : c = '[' := by
            have h2 := (leadsWith_iff _ _).mp h1
            rw [show "[[".toList = ['[', '['] from by decide] at h2
            exact ((List.cons_prefix_cons.mp h2).1).symm
          simp only [protScanGo, h1, if_true, hf]
          apply scanOK_match buf.reverse hout
          refine ⟨'[', ?_, by decide⟩
          rw [show 2 + d + 2 = (1 + d + 2) + 1 from by omega, List.take_succ_cons]
          rw [hc]
          exact List.mem_cons_self _ _
      · have hb1 : leadsWith "[[".toList (c :: rest) = false := Bool.eq_false_iff.mpr h1
        by_cases h2 : leadsWith "\x7b\x7b".toList (c :: rest) = true
        · rcases hf : findSubFrom ((c :: rest).drop 2) "\x7d\x7d".toList with _ | d
          · have hres : protScanGo (fuel + 1) (c :: rest) buf =
                protScanGo fuel rest (c :: buf) := by
              simp only [protScanGo, hb1, Bool.false_eq_true, if_false, h2, if_true, hf]
            rw [hres]
            have h3 := ih rest (c :: buf) hlen
            rw [List.reverse_cons] at h3
            exact scanOK_advance buf.reverse c h3
          · have hb : ((c :: rest).drop (2 + d + 2)).length ≤ fuel := by
              rw [List.length_drop]
              simp only [List.length_cons]
              omega
            have hout := ih ((c :: rest).drop (2 + d + 2)) [] hb
            rw [List.reverse_nil] at hout
            have hc : c = '\x7b' := by
              have h3 := (leadsWith_iff _ _).mp h2
              rw [show "\x7b\x7b".toList = ['\x7b', '\x7b'] from by decide] at h3
              exact ((List.cons_prefix_cons.mp h3).1).symm
            simp only [protScanGo, hb1, Bool.false_eq_true, if_false, h2, if_true, hf]
            apply scanOK_match buf.reverse hout
            refine ⟨'\x7b', ?_, by decide⟩
            rw [show 2 + d + 2 = (1 + d + 2) + 1 from by omega, List.take_succ_cons]
            rw [hc]
            exact List.mem_cons_self _ _
        · have hb2 : leadsWith "\x7b\x7b".toList (c :: rest) = false := Bool.eq_false_iff.mpr h2
          have hres : protScanGo (fuel + 1) (c :: rest) buf =
              protScanGo fuel rest (c :: buf) := by
            simp only [protScanGo, hb1, hb2, Bool.false_eq_true, if_false]
          rw [hres]
          have h3 := ih rest (c :: buf) hlen
          rw [List.reverse_cons] at h3
          exact scanOK_advance buf.reverse c h3

theorem linkScanGo_scanOK : ∀ (fuel : Nat) (s buf : Str), s.length ≤ fuel →
    ScanOK buf.reverse s (linkScanGo fuel s buf) := by
  intro fuel
  induction fuel with
  | zero =>
    intro s buf hs
    have : s = [] := List.length_eq_zero.mp (Nat.le_zero.mp hs)
    subst this
    exact scanOK_nil buf.reverse
  | succ fuel ih =>
    intro s buf hs
    cases s with
    | nil => exact scanOK_nil buf.reverse
    | cons c rest =>
      have hlen : rest.length ≤ fuel := by
        simp only [List.length_cons] at hs
        omega
      by_cases h1 : leadsWith "[[".toList (c :: rest) = true
      · rcases hf : findSubFrom ((c :: rest).drop 2) "]]".toList with _ | d
        · have hres : linkScanGo (fuel + 1) (c :: rest) buf =
              linkScanGo fuel rest (c :: buf) := by
            simp only [linkScanGo, h1, if_true, hf]
          rw [hres]
          have h2 := ih rest (c :: buf) hlen
          rw [List.reverse_cons] at h2
          exact scanOK_advance buf.reverse c h2
        · have hb : ((c :: rest).drop (2 + d + 2)).length ≤ fuel := by
            rw [List.length_drop]
            simp only [List.length_cons]
            omega
          have hout := ih ((c :: rest).drop (2 + d + 2)) [] hb
          rw [List.reverse_nil] at hout
          have hc : c = '[' := by
            have h2 := (leadsWith_iff _ _).mp h1
            rw [show "[[".toList = ['[', '['] from by decide] at h2
            exact ((List.cons_prefix_cons.mp h2).1).symm
          simp only [linkScanGo, h1, if_true, hf]
          apply scanOK_match buf.reverse hout
          refine ⟨'[', ?_, by decide⟩
          rw [show 2 + d + 2 = (1 + d + 2) + 1 from by omega, List.take_succ_cons]
          rw [hc]
          exact List.mem_cons_self _ _
      · have hb1 : leadsWith "[[".toList (c :: rest) = false := Bool.eq_false_iff.mpr h1
        have hres : linkScanGo (fuel + 1) (c :: rest) buf =
            linkScanGo fuel rest (c :: buf) := by
          simp only [linkScanGo, hb1, Bool.false_eq_true, if_false]
        rw [hres]
        have h2 := ih rest (c :: buf) hlen
        rw [List.reverse_cons] at h2
        exact scanOK_advance buf.reverse c h2

theorem protectSegs_scanOK (text : Str) : ScanOK [] text (protectSegs text) :=
  protScanGo_scanOK text.length text [] (le_refl _)

theorem linkSegs_scanOK (text : Str) : ScanOK [] text (linkSegs text) :=
  linkScanGo_scanOK text.length text [] (le_refl _)


/-! ## C1/C7: the term-substitution loop (phase A) -/

theorem termLoop_noop : ∀ (terms : List (Str × Str)) (w : Str) (ins : List Str),
    (∀ tr ∈ terms, tr.1 ≠ [] → containsS w tr.1 = false) →
    termLoop terms w ins = (w, ins) := by
  intro terms
  induction terms with
  | nil => intro w ins h; rfl
  | cons tr2 rest ih =>
    intro w ins h
    obtain ⟨t, rp⟩ := tr2
    have hg : ¬ (t ≠ [] ∧ containsS w t = true) := by
      rintro ⟨hne, hc⟩
      rw [h (t, rp) (by simp) hne] at hc
      exact absurd hc (by simp)
    simp only [termLoop]
    rw [if_neg hg]
    exact ih w ins (fun tr htr => h tr (by simp [htr]))

theorem termLoop_inserted : ∀ (terms : List (Str × Str)) (w : Str) (ins : List Str),
    ∀ r ∈ (termLoop terms w ins).2, r ∈ ins ∨ ∃ tr ∈ terms, r = tr.2 := by
  intro terms
  induction terms with
  | nil => intro w ins r hr; exact Or.inl hr
  | cons tr2 rest ih =>
    intro w ins r hr
    obtain ⟨t, rp⟩ := tr2
    by_cases hg : t ≠ [] ∧ containsS w t = true
    · rw [show termLoop ((t, rp) :: rest) w ins =
          termLoop rest (strReplace w t (tokStr (insInner ins.length))) (ins ++ [rp]) from by
        simp only [termLoop]; rw [if_pos hg]] at hr
      rcases ih _ _ r hr with h1 | ⟨tr3, htr3, he⟩
      · rcases List.mem_append.mp h1 with h2 | h2
        · exact Or.inl h2
        · exact Or.inr ⟨(t, rp), by simp, by simpa using h2⟩
      · exact Or.inr ⟨tr3, by simp [htr3], he⟩
    · rw [show termLoop ((t, rp) :: rest) w ins = termLoop rest w ins from by
        simp only [termLoop]; rw [if_neg hg]] at hr
      rcases ih _ _ r hr with h1 | ⟨tr3, htr3, he⟩
      · exact Or.inl h1
      · exact Or.inr ⟨tr3, by simp [htr3], he⟩

theorem termLoop_sim (text : Str) :
    ∀ (terms : List (Str × Str)),
      (∀ tr ∈ terms, tr.1 ≠ [] →
        '\x07' ∉ tr.1 ∧ (∀ n, ¬ tr.1 <:+: protInner n) ∧ (∀ n, ¬ tr.1 <:+: insInner n)) →
      ∀ (p : Str) (pairs : List (Str × Str)) (ins : List Str),
        p <:+: text → (∀ pr ∈ pairs, pr.2 <:+: text) →
        (∀ y ∈ pairs.map Prod.fst,
          (∃ i, y = protInner i) ∨ ∃ j, j < ins.length ∧ y = insInner j) →
        ∃ p2 pairs2,
          (termLoop terms (structStr (p, pairs)) ins).1 = structStr (p2, pairs2) ∧
          p2 <:+: text ∧ (∀ pr ∈ pairs2, pr.2 <:+: text) ∧
          (∀ y ∈ pairs2.map Prod.fst,
            (∃ i, y = protInner i) ∨
              ∃ j, j < (termLoop terms (structStr (p, pairs)) ins).2.length ∧
                y = insInner j) ∧
          (pairs2.map Prod.fst).filter (leadsWith "WIKITERM_TOKEN_PROT_".toList) =
            (pairs.map Prod.fst).filter (leadsWith "WIKITERM_TOKEN_PROT_".toList) := by
  intro terms
  induction terms with
  | nil =>
    intro hterms p pairs ins hp hpairs hseps
    exact ⟨p, pairs, rfl, hp, hpairs, hseps, rfl⟩
  | cons tr2 rest ih =>
    intro hterms p pairs ins hp hpairs hseps
    obtain ⟨t, rp⟩ := tr2
    by_cases hg : t ≠ [] ∧ containsS (structStr (p, pairs)) t = true
    · obtain ⟨hne, hcont⟩ := hg
      obtain ⟨ht7, htp, hti⟩ := hterms (t, rp) (by simp) hne
      have hsepsnot : ∀ pr ∈ pairs, ¬ t <:+: pr.1 := by
        intro pr hpr
        rcases hseps pr.1 (List.mem_map_of_mem Prod.fst hpr) with ⟨i, he⟩ | ⟨j, _, he⟩
        · rw [he]; exact htp i
        · rw [he]; exact hti j
      have hrw : termLoop ((t, rp) :: rest) (structStr (p, pairs)) ins =
          termLoop rest (strReplace (structStr (p, pairs)) t
            (tokStr (insInner ins.length))) (ins ++ [rp]) := by
        simp only [termLoop]
        rw [if_pos ⟨hne, hcont⟩]
      have hrender := stepA_render t (insInner ins.length) hne ht7 pairs p hsepsnot
      rcases hsA : stepA t (insInner ins.length) p pairs with ⟨pA, lA⟩
      rw [hsA] at hrender
      have hpieces := stepA_pieces (fun u => u <:+: text)
        (fun u v huv hv => huv.trans hv) t (insInner ins.length) pairs p hp hpairs
      rw [hsA] at hpieces
      have hsepsA : ∀ y ∈ lA.map Prod.fst,
          (∃ i, y = protInner i) ∨ ∃ j, j < (ins ++ [rp]).length ∧ y = insInner j := by
        intro y hy
        have hmem := stepA_seps t (insInner ins.length) pairs p y (by rw [hsA]; exact hy)
        rcases hmem with rfl | hold
        · exact Or.inr ⟨ins.length, by simp, rfl⟩
        · rcases hseps y hold with ⟨i, he⟩ | ⟨j, hj, he⟩
          · exact Or.inl ⟨i, he⟩
          · exact Or.inr ⟨j, by simp; omega, he⟩
      obtain ⟨p2, pairs2, heq, h1, h2, h3, h4⟩ :=
        ih (fun tr htr => hterms tr (by simp [htr])) pA lA (ins ++ [rp])
          hpieces.1 hpieces.2 hsepsA
      refine ⟨p2, pairs2, ?_, h1, h2, ?_, ?_⟩
      · rw [hrw, hrender, heq]
      · rw [hrw, hrender]
        exact h3
      · rw [h4]
        have hpr := stepA_protSeq t (insInner ins.length)
          (leadsWith_prot_insInner ins.length) pairs p
        rw [hsA] at hpr
        exact hpr
    · have hrw : termLoop ((t, rp) :: rest) (structStr (p, pairs)) ins =
          termLoop rest (structStr (p, pairs)) ins := by
        simp only [termLoop]
        rw [if_neg hg]
      obtain ⟨p2, pairs2, heq, h1, h2, h3, h4⟩ :=
        ih (fun tr htr => hterms tr (by simp [htr])) p pairs ins hp hpairs hseps
      refine ⟨p2, pairs2, ?_, h1, h2, ?_, h4⟩
      · rw [hrw, heq]
      · rw [hrw]
        exact h3


/-! ## C1/C7: the resolve loop (phase B) -/

theorem resolveLoop_sim (text : Str) (hmagic : ¬ "WIKITERM_TOKEN".toList <:+: text) :
    ∀ (repls : List Str) (j : Nat) (p : Str) (pairs : List (Str × Str)),
      (∀ r ∈ repls, '\x07' ∉ r ∧ ∃ c ∈ r, tokChar c = false) →
      ('\x07' ∉ p ∧ (p <:+: text ∨ ∃ c ∈ p, tokChar c = false)) →
      (∀ pr ∈ pairs, '\x07' ∉ pr.2 ∧ (pr.2 <:+: text ∨ ∃ c ∈ pr.2, tokChar c = false)) →
      (∀ y ∈ pairs.map Prod.fst,
        (∃ i, y = protInner i) ∨ ∃ j2, j ≤ j2 ∧ j2 < j + repls.length ∧ y = insInner j2) →
      ∃ p2 pairs2,
        resolveLoop j repls (structStr (p, pairs)) = structStr (p2, pairs2) ∧
        ('\x07' ∉ p2 ∧ (p2 <:+: text ∨ ∃ c ∈ p2, tokChar c = false)) ∧
        (∀ pr ∈ pairs2, '\x07' ∉ pr.2 ∧ (pr.2 <:+: text ∨ ∃ c ∈ pr.2, tokChar c = false)) ∧
        (∀ y ∈ pairs2.map Prod.fst, ∃ i, y = protInner i) ∧
        (pairs2.map Prod.fst).filter (leadsWith "WIKITERM_TOKEN_PROT_".toList) =
          (pairs.map Prod.fst).filter (leadsWith "WIKITERM_TOKEN_PROT_".toList) := by
  intro repls
  induction repls with
  | nil =>
    intro j p pairs hrepls hp hpairs hseps
    refine ⟨p, pairs, rfl, hp, hpairs, ?_, rfl⟩
    intro y hy
    rcases hseps y hy with ⟨i, he⟩ | ⟨j2, hle, hlt, _⟩
    · exact ⟨i, he⟩
    · simp only [List.length_nil] at hlt
      omega
  | cons r rest ih =>
    intro j p pairs hrepls hp hpairs hseps
    have hr := hrepls r (by simp)
    have hsepsfacts : ∀ pr ∈ pairs, '\x07' ∉ pr.1 ∧ '\x07' ∉ pr.2 ∧ pr.2 ≠ insInner j := by
      intro pr hpr
      refine ⟨?_, (hpairs pr hpr).1, plain_ne_insInner hmagic (hpairs pr hpr).2 j⟩
      rcases hseps pr.1 (List.mem_map_of_mem Prod.fst hpr) with ⟨i, he⟩ | ⟨j2, _, _, he⟩
      · rw [he]; exact protInner_x07 i
      · rw [he]; exact insInner_x07 j2
    have hrender := stepT_render (insInner j) r (insInner_ne_nil j) (insInner_x07 j)
      hr.1 pairs p hp.1 hsepsfacts
    rcases hsT : stepT (insInner j) r p pairs with ⟨pT, lT⟩
    rw [hsT] at hrender
    have hPjoin : ∀ u v,
        ('\x07' ∉ u ∧ (u <:+: text ∨ ∃ c ∈ u, tokChar c = false)) →
        ('\x07' ∉ v ∧ (v <:+: text ∨ ∃ c ∈ v, tokChar c = false)) →
        ('\x07' ∉ u ++ r ++ v ∧
          (u ++ r ++ v <:+: text ∨ ∃ c ∈ u ++ r ++ v, tokChar c = false)) := by
      intro u v hu hv
      constructor
      · intro hc
        rcases List.mem_append.mp hc with hc1 | hc2
        · rcases List.mem_append.mp hc1 with hc3 | hc4
          · exact hu.1 hc3
          · exact hr.1 hc4
        · exact hv.1 hc2
      · right
        obtain ⟨c, hcr, hcf⟩ := hr.2
        refine ⟨c, ?_, hcf⟩
        rw [List.mem_append]
        left
        rw [List.mem_append]
        right
        exact hcr
    have hpieces := stepT_pieces
      (fun u => '\x07' ∉ u ∧ (u <:+: text ∨ ∃ c ∈ u, tokChar c = false))
      (insInner j) r hPjoin pairs p hp hpairs
    rw [hsT] at hpieces
    have hseq := stepT_seps (insInner j) r pairs p
    rw [hsT] at hseq
    have hsepsT : ∀ y ∈ lT.map Prod.fst,
        (∃ i, y = protInner i) ∨
          ∃ j2, j + 1 ≤ j2 ∧ j2 < (j + 1) + rest.length ∧ y = insInner j2 := by
      intro y hy
      rw [hseq] at hy
      have hy2 := List.of_mem_filter hy
      have hy3 := List.mem_of_mem_filter hy
      rcases hseps y hy3 with ⟨i, he⟩ | ⟨j2, hle, hlt, he⟩
      · exact Or.inl ⟨i, he⟩
      · refine Or.inr ⟨j2, ?_, ?_, he⟩
        · rcases Nat.lt_or_ge j j2 with hlt2 | hge
          · omega
          · have hj2 : j2 = j := by omega
            subst hj2
            rw [he] at hy2
            simp at hy2
        · simp only [List.length_cons] at hlt
          omega
    obtain ⟨p2, pairs2, heq, h1, h2, h3, h4⟩ :=
      ih (j + 1) pT lT (fun r2 hr2 => hrepls r2 (by simp [hr2]))
        hpieces.1 hpieces.2 hsepsT
    refine ⟨p2, pairs2, ?_, h1, h2, h3, ?_⟩
    · show resolveLoop (j + 1) rest
        (strReplace (structStr (p, pairs)) (tokStr (insInner j)) r) = structStr (p2, pairs2)
      rw [hrender, heq]
    · rw [h4, hseq]
      exact filter_protSeq_of_ne (leadsWith_prot_insInner j) (pairs.map Prod.fst)

/-! ## C1/C7: the restore loop (phase C) -/

theorem restoreLoop_sim (text : Str) (hmagic : ¬ "WIKITERM_TOKEN".toList <:+: text) :
    ∀ (spans : List Str) (i : Nat) (p : Str) (pairs : List (Str × Str)),
      (∀ sp ∈ spans, '\x07' ∉ sp ∧ ∃ c ∈ sp, tokChar c = false) →
      ('\x07' ∉ p ∧ (p <:+: text ∨ ∃ c ∈ p, tokChar c = false)) →
      (∀ pr ∈ pairs, '\x07' ∉ pr.2 ∧ (pr.2 <:+: text ∨ ∃ c ∈ pr.2, tokChar c = false)) →
      pairs.map Prod.fst = (List.range spans.length).map (fun t => protInner (i + t)) →
      restoreLoop i spans (structStr (p, pairs)) =
        interleave (p :: pairs.map Prod.snd) spans := by
  intro spans
  induction spans with
  | nil =>
    intro i p pairs hspans hp hpairs hseq
    have hlen := congrArg List.length hseq
    simp only [List.length_map, List.length_nil, List.length_range, List.range_zero] at hlen
    have hnil : pairs = [] := List.length_eq_zero.mp hlen
    subst hnil
    show structStr (p, []) = interleave [p] []
    simp [structStr, structTail, interleave]
  | cons sp spr ih =>
    intro i p pairs hspans hp hpairs hseq
    cases pairs with
    | nil =>
      exfalso
      have hlen := congrArg List.length hseq
      simp only [List.length_map, List.length_nil, List.length_cons, List.length_range] at hlen
      omega
    | cons pr0 pairsr =>
      obtain ⟨y0, q0⟩ := pr0
      rw [List.map_cons, List.length_cons, List.range_succ_eq_map, List.map_cons,
        List.map_map] at hseq
      injection hseq with hy0p hrest
      have hy0 : y0 = protInner i := by
        have h6 : y0 = protInner (i + 0) := hy0p
        rw [h6]
        exact congrArg protInner (by omega)
      have hrest2 : pairsr.map Prod.fst =
          (List.range spr.length).map (fun t => protInner ((i + 1) + t)) := by
        rw [hrest]
        apply List.map_congr_left
        intro a _
        simp only [Function.comp_apply]
        exact congrArg protInner (by omega)
      have hsepsfacts : ∀ pr ∈ ((y0, q0) :: pairsr : List (Str × Str)),
          '\x07' ∉ pr.1 ∧ '\x07' ∉ pr.2 ∧ pr.2 ≠ protInner i := by
        intro pr hpr
        refine ⟨?_, (hpairs pr hpr).1, plain_ne_protInner hmagic (hpairs pr hpr).2 i⟩
        rcases List.mem_cons.mp hpr with rfl | hm
        · show '\x07' ∉ y0
          rw [hy0]
          exact protInner_x07 i
        · have h5 : pr.1 ∈ pairsr.map Prod.fst := List.mem_map_of_mem Prod.fst hm
          rw [hrest2] at h5
          rcases List.mem_map.mp h5 with ⟨t, _, he⟩
          rw [← he]
          exact protInner_x07 _
      have hsp := hspans sp (by simp)
      have hrender := stepT_render (protInner i) sp (protInner_ne_nil i) (protInner_x07 i)
        hsp.1 ((y0, q0) :: pairsr) p hp.1 hsepsfacts
      have hner : ∀ pr ∈ pairsr, pr.1 ≠ protInner i := by
        intro pr hpr he
        have h5 : pr.1 ∈ pairsr.map Prod.fst := List.mem_map_of_mem Prod.fst hpr
        rw [hrest2] at h5
        rcases List.mem_map.mp h5 with ⟨t, _, he2⟩
        rw [he] at he2
        have := protInner_inj he2
        omega
      have hnom3 : stepT (protInner i) sp q0 pairsr = (q0, pairsr) :=
        stepT_noMatch (protInner i) sp pairsr q0 hner
      have hstep : stepT (protInner i) sp p ((y0, q0) :: pairsr) =
          (p ++ sp ++ q0, pairsr) := by
        simp only [stepT, hnom3]
        rw [if_pos hy0]
      rw [hstep] at hrender
      have hplain2 : '\x07' ∉ p ++ sp ++ q0 ∧
          (p ++ sp ++ q0 <:+: text ∨ ∃ c ∈ p ++ sp ++ q0, tokChar c = false) := by
        constructor
        · intro hc
          rcases List.mem_append.mp hc with hc1 | hc2
          · rcases List.mem_append.mp hc1 with hc3 | hc4
            · exact hp.1 hc3
            · exact hsp.1 hc4
          · exact (hpairs (y0, q0) (by simp)).1 hc2
        · right
          obtain ⟨c, hcr, hcf⟩ := hsp.2
          refine ⟨c, ?_, hcf⟩
          rw [List.mem_append]
          left
          rw [List.mem_append]
          right
          exact hcr
      have hpr2 : ∀ pr ∈ pairsr,
          '\x07' ∉ pr.2 ∧ (pr.2 <:+: text ∨ ∃ c ∈ pr.2, tokChar c = false) :=
        fun pr hpr => hpairs pr (by simp [hpr])
      have ihres := ih (i + 1) (p ++ sp ++ q0) pairsr
        (fun s2 hs2 => hspans s2 (by simp [hs2])) hplain2 hpr2 hrest2
      show restoreLoop (i + 1) spr
        (strReplace (structStr (p, (y0, q0) :: pairsr)) (tokStr (protInner i)) sp) =
        interleave (p :: ((y0, q0) :: pairsr).map Prod.snd) (sp :: spr)
      rw [hrender, ihres]
      rw [interleave_append_head spr (p ++ sp) q0 (pairsr.map Prod.snd)]
      rfl

/-! ## C1/C7: protect/restore round trip and fixpoint -/

theorem protect_restore_roundtrip (y : Str) (h7 : '\x07' ∉ y)
    (hmagic : ¬ "WIKITERM_TOKEN".toList <:+: y) :
    restoreLoop 0 (protect_wiki_segments y).2 (protect_wiki_segments y).1 = y := by
  obtain ⟨hseg, ⟨u, hu, hres⟩, hsp⟩ := protectSegs_scanOK y
  rw [List.nil_append] at hres hseg
  show restoreLoop 0 (protectedSpans y)
    (structStr ((protectSegs y).1, tokenizePairs 0 (protectSegs y).2)) = y
  have hspans : ∀ sp2 ∈ protectedSpans y, '\x07' ∉ sp2 ∧ ∃ c ∈ sp2, tokChar c = false := by
    intro sp2 hsp2
    rcases List.mem_map.mp hsp2 with ⟨pr, hpr, he⟩
    obtain ⟨ha, hb, _⟩ := hsp pr hpr
    exact ⟨by rw [← he]; exact infix_x07_free h7 ha, by rw [← he]; exact hb⟩
  have hplain : '\x07' ∉ (protectSegs y).1 ∧
      ((protectSegs y).1 <:+: y ∨ ∃ c ∈ (protectSegs y).1, tokChar c = false) := by
    have hinf : (protectSegs y).1 <:+: y := by
      rw [hres]
      exact hu.isInfix
    exact ⟨infix_x07_free h7 hinf, Or.inl hinf⟩
  have hpairs2 : ∀ pr ∈ tokenizePairs 0 (protectSegs y).2,
      '\x07' ∉ pr.2 ∧ (pr.2 <:+: y ∨ ∃ c ∈ pr.2, tokChar c = false) := by
    intro pr hpr
    have h5 : pr.2 ∈ (tokenizePairs 0 (protectSegs y).2).map Prod.snd :=
      List.mem_map_of_mem Prod.snd hpr
    rw [tokenizePairs_map_snd] at h5
    rcases List.mem_map.mp h5 with ⟨pr0, hpr0, he⟩
    obtain ⟨_, _, hc2⟩ := hsp pr0 hpr0
    rw [← he]
    exact ⟨infix_x07_free h7 hc2, Or.inl hc2⟩
  have hseqn : (tokenizePairs 0 (protectSegs y).2).map Prod.fst =
      (List.range (protectedSpans y).length).map (fun t => protInner (0 + t)) := by
    rw [tokenizePairs_map_fst]
    have hlen2 : (protectedSpans y).length = (protectSegs y).2.length := by
      simp [protectedSpans]
    rw [hlen2]
  rw [restoreLoop_sim y hmagic (protectedSpans y) 0 (protectSegs y).1
    (tokenizePairs 0 (protectSegs y).2) hspans hplain hpairs2 hseqn]
  rw [tokenizePairs_map_snd]
  unfold protectedSpans
  rw [← segStr_interleave]
  exact hseg

theorem apply_wikiterms_fixpoint (y : Str) (terms : List (Str × Str))
    (h7 : '\x07' ∉ y)
    (hmagic : ¬ "WIKITERM_TOKEN".toList <:+: y)
    (hnoocc : ∀ tr ∈ terms, tr.1 ≠ [] →
      containsS (protect_wiki_segments y).1 tr.1 = false) :
    apply_wikiterms y terms = y := by
  by_cases hc : y = [] ∨ terms = []
  · unfold apply_wikiterms
    rw [if_pos hc]
  · unfold apply_wikiterms
    rw [if_neg hc]
    have hterm := termLoop_noop terms (protect_wiki_segments y).1 [] hnoocc
    show restoreLoop 0 (protect_wiki_segments y).2
      (resolveLoop 0 (termLoop terms (protect_wiki_segments y).1 []).2
        (termLoop terms (protect_wiki_segments y).1 []).1) = y
    rw [hterm]
    show restoreLoop 0 (protect_wiki_segments y).2 (protect_wiki_segments y).1 = y
    exact protect_restore_roundtrip y h7 hmagic


/-! ## Claim C1 -/

theorem foldl_strReplace_nil : ∀ (keys : List Str) (d : List (Str × Str)),
    keys.foldl (fun s k => strReplace s k (lookupD d k)) [] = [] := by
  intro keys
  induction keys with
  | nil => intro d; rfl
  | cons k ks ih =>
    intro d
    show ks.foldl (fun s k2 => strReplace s k2 (lookupD d k2))
      (strReplace [] k (lookupD d k)) = []
    rw [strReplace_nil]
    exact ih d

theorem subSegment_nil (d : List (Str × Str)) : subSegment d [] = [] :=
  foldl_strReplace_nil (sortKeysDesc (d.map Prod.fst)) d

theorem subSegment_nil_dict (seg : Str) : subSegment [] seg = seg := rfl

set_option maxRecDepth 40000 in
/-- C1 counterexample: the claim fails as stated. `apply_wikiterms_outside_links`
protects only `[[...]]` link spans, not `\x7b\x7b...\x7d\x7d` template spans, so it
rewrites inside a template span; and `apply_wikiterms` applied to a term whose
pattern collides with the placeholder text corrupts a protected link span, which
is then absent from the output. -/
theorem c1_counterexample :
    protectedSpans "\x7b\x7ba\x7d\x7d".toList = ["\x7b\x7ba\x7d\x7d".toList] ∧
    apply_wikiterms_outside_links "\x7b\x7ba\x7d\x7d".toList
      [("a".toList, "b".toList)] = "\x7b\x7bb\x7d\x7d".toList ∧
    containsS (apply_wikiterms_outside_links "\x7b\x7ba\x7d\x7d".toList
      [("a".toList, "b".toList)]) "\x7b\x7ba\x7d\x7d".toList = false ∧
    protectedSpans "[[a]]".toList = ["[[a]]".toList] ∧
    apply_wikiterms "[[a]]".toList [("WIKITERM_TOKEN_PROT_0".toList, "x".toList)] =
      ['\x07', 'x', '\x07'] ∧
    containsS (apply_wikiterms "[[a]]".toList
      [("WIKITERM_TOKEN_PROT_0".toList, "x".toList)]) "[[a]]".toList = false := by
  decide

/-- C1 (corrected): `apply_wikiterms_outside_links` preserves every `[[...]]`
link span byte-for-byte, substituting only in the pieces between them
(unconditionally, but template spans are not protected); and `apply_wikiterms`
preserves every `[[...]]`/`\x7b\x7b...\x7d\x7d` protected span byte-for-byte provided
the text is free of the `\u0007`/`WIKITERM_TOKEN` placeholder alphabet and every
nonempty pattern and every replacement contains a character that cannot occur
in a placeholder. -/
theorem c1_span_preservation (text : Str) (d terms : List (Str × Str))
    (h7 : '\x07' ∉ text)
    (hmagic : containsS text "WIKITERM_TOKEN".toList = false)
    (hterms : ∀ tr ∈ terms, tr.1 ≠ [] → '\x07' ∉ tr.1 ∧ ∃ c ∈ tr.1, tokChar c = false)
    (hrepl : ∀ tr ∈ terms, '\x07' ∉ tr.2 ∧ ∃ c ∈ tr.2, tokChar c = false) :
    (text = interleave ((linkSegs text).1 :: (linkSegs text).2.map Prod.snd)
        (linkSpans text) ∧
      apply_wikiterms_outside_links text d =
        interleave (((linkSegs text).1 :: (linkSegs text).2.map Prod.snd).map
          (subSegment d)) (linkSpans text)) ∧
    (text = interleave ((protectSegs text).1 :: (protectSegs text).2.map Prod.snd)
        (protectedSpans text) ∧
      ∃ outs, outs.length = (protectedSpans text).length + 1 ∧
        apply_wikiterms text terms = interleave outs (protectedSpans text)) := by
  obtain ⟨hsegL, _, _⟩ := linkSegs_scanOK text
  rw [List.nil_append] at hsegL
  have htext_link : text = interleave
      ((linkSegs text).1 :: (linkSegs text).2.map Prod.snd) (linkSpans text) :=
    hsegL.symm.trans (segStr_interleave (linkSegs text).2 (linkSegs text).1)
  obtain ⟨hsegP, ⟨u0, hu0, hres0⟩, hspP⟩ := protectSegs_scanOK text
  rw [List.nil_append] at hres0 hsegP
  have htext_prot : text = interleave
      ((protectSegs text).1 :: (protectSegs text).2.map Prod.snd) (protectedSpans text) :=
    hsegP.symm.trans (segStr_interleave (protectSegs text).2 (protectSegs text).1)
  constructor
  · refine ⟨htext_link, ?_⟩
    have hm : ((linkSegs text).1 :: (linkSegs text).2.map Prod.snd).map (subSegment d) =
        subSegment d (linkSegs text).1 ::
          (linkSegs text).2.map (fun lq => subSegment d lq.2) := by
      simp only [List.map_cons, List.map_map]
      rfl
    by_cases hc : text = [] ∨ d = []
    · rw [show apply_wikiterms_outside_links text d = text from by
        unfold apply_wikiterms_outside_links; rw [if_pos hc]]
      rcases hc with rfl | rfl
      · show ([] : Str) = interleave ([subSegment d []].map id) []
        rw [List.map_id]
        show ([] : Str) = subSegment d [] ++ interleave [] []
        rw [subSegment_nil]
        rfl
      · have hid : ((linkSegs text).1 :: (linkSegs text).2.map Prod.snd).map
            (subSegment []) = (linkSegs text).1 :: (linkSegs text).2.map Prod.snd := by
          rw [List.map_congr_left (fun a _ => subSegment_nil_dict a), List.map_id']
        rw [hid]
        exact htext_link
    · rw [show apply_wikiterms_outside_links text d =
          subSegment d (linkSegs text).1 ++
            ((linkSegs text).2.map (fun lq => lq.1 ++ subSegment d lq.2)).flatten from by
        unfold apply_wikiterms_outside_links; rw [if_neg hc]]
      rw [hm]
      exact interleave_flatten (subSegment d) (linkSegs text).2
        (subSegment d (linkSegs text).1)
  · refine ⟨htext_prot, ?_⟩
    by_cases hc : text = [] ∨ terms = []
    · refine ⟨(protectSegs text).1 :: (protectSegs text).2.map Prod.snd, ?_, ?_⟩
      · simp [protectedSpans]
      · rw [show apply_wikiterms text terms = text from by
          unfold apply_wikiterms; rw [if_pos hc]]
        exact htext_prot
    · have hmagic2 : ¬ "WIKITERM_TOKEN".toList <:+: text := by
        intro h
        rw [← containsS_iff] at h
        rw [hmagic] at h
        exact Bool.false_ne_true h
      have hterms2 : ∀ tr ∈ terms, tr.1 ≠ [] →
          '\x07' ∉ tr.1 ∧ (∀ n, ¬ tr.1 <:+: protInner n) ∧
            (∀ n, ¬ tr.1 <:+: insInner n) := by
        intro tr htr hne
        obtain ⟨h7t, c, hcm, hcf⟩ := hterms tr htr hne
        obtain ⟨hA, hB⟩ := not_infix_inner_of_special c hcm hcf
        exact ⟨h7t, hA, hB⟩
      have hP0inf : (protectSegs text).1 <:+: text := by
        rw [hres0]
        exact hu0.isInfix
      have hL0plains : ∀ pr ∈ tokenizePairs 0 (protectSegs text).2, pr.2 <:+: text := by
        intro pr hpr
        have h5 : pr.2 ∈ (tokenizePairs 0 (protectSegs text).2).map Prod.snd :=
          List.mem_map_of_mem Prod.snd hpr
        rw [tokenizePairs_map_snd] at h5
        rcases List.mem_map.mp h5 with ⟨pr0, hpr0, he⟩
        rw [← he]
        exact (hspP pr0 hpr0).2.2
      have hL0seps : ∀ y ∈ (tokenizePairs 0 (protectSegs text).2).map Prod.fst,
          ∃ i, y = protInner i := by
        intro y hy
        rw [tokenizePairs_map_fst] at hy
        rcases List.mem_map.mp hy with ⟨t, _, he⟩
        exact ⟨0 + t, he.symm⟩
      obtain ⟨p2, pairs2, heqA, hp2, hpairs2, hseps2, hfilterA⟩ :=
        termLoop_sim text terms hterms2 (protectSegs text).1
          (tokenizePairs 0 (protectSegs text).2) [] hP0inf hL0plains
          (fun y hy => Or.inl (hL0seps y hy))
      have hrepls : ∀ r ∈ (termLoop terms
          (structStr ((protectSegs text).1, tokenizePairs 0 (protectSegs text).2)) []).2,
          '\x07' ∉ r ∧ ∃ c ∈ r, tokChar c = false := by
        intro r hr
        rcases termLoop_inserted terms _ [] r hr with h | ⟨tr, htr, he⟩
        · simp at h
        · rw [he]
          exact hrepl tr htr
      have hsepsB : ∀ y ∈ pairs2.map Prod.fst,
          (∃ i, y = protInner i) ∨
            ∃ j2, 0 ≤ j2 ∧ j2 < 0 + (termLoop terms
              (structStr ((protectSegs text).1,
                tokenizePairs 0 (protectSegs text).2)) []).2.length ∧
              y = insInner j2 := by
        intro y hy
        rcases hseps2 y hy with h | ⟨j, hj, he⟩
        · exact Or.inl h
        · exact Or.inr ⟨j, by omega, by omega, he⟩
      obtain ⟨p3, pairs3, heqB, hp3, hpairs3, hallprot3, hfilterB⟩ :=
        resolveLoop_sim text hmagic2 (termLoop terms
          (structStr ((protectSegs text).1, tokenizePairs 0 (protectSegs text).2)) []).2
          0 p2 pairs2 hrepls
          ⟨infix_x07_free h7 hp2, Or.inl hp2⟩
          (fun pr hpr => ⟨infix_x07_free h7 (hpairs2 pr hpr),
            Or.inl (hpairs2 pr hpr)⟩)
          hsepsB
      have hspansOK : ∀ sp2 ∈ protectedSpans text,
          '\x07' ∉ sp2 ∧ ∃ c ∈ sp2, tokChar c = false := by
        intro sp2 hsp2
        rcases List.mem_map.mp hsp2 with ⟨pr, hpr, he⟩
        obtain ⟨ha, hb, _⟩ := hspP pr hpr
        exact ⟨by rw [← he]; exact infix_x07_free h7 ha, by rw [← he]; exact hb⟩
      have hchain : pairs3.map Prod.fst =
          (List.range (protectedSpans text).length).map (fun t => protInner (0 + t)) := by
        have e1 := filter_protSeq_all_prot (pairs3.map Prod.fst) hallprot3
        have e2 := filter_protSeq_all_prot
          ((tokenizePairs 0 (protectSegs text).2).map Prod.fst) hL0seps
        rw [← e1, hfilterB, hfilterA, e2, tokenizePairs_map_fst]
        have hlen2 : (protectedSpans text).length = (protectSegs text).2.length := by
          simp [protectedSpans]
        rw [hlen2]
      have hC := restoreLoop_sim text hmagic2 (protectedSpans text) 0 p3 pairs3
        hspansOK hp3 hpairs3 hchain
      have hunf : apply_wikiterms text terms =
          restoreLoop 0 (protectedSpans text)
            (resolveLoop 0 (termLoop terms
              (structStr ((protectSegs text).1,
                tokenizePairs 0 (protectSegs text).2)) []).2
              (termLoop terms (structStr ((protectSegs text).1,
                tokenizePairs 0 (protectSegs text).2)) []).1) := by
        unfold apply_wikiterms
        rw [if_neg hc]
        rfl
      refine ⟨p3 :: pairs3.map Prod.snd, ?_, ?_⟩
      · have hlen3 := congrArg List.length hchain
        simp only [List.length_map, List.length_range] at hlen3
        simp [hlen3]
      · rw [hunf, heqA, heqB]
        exact hC

set_option maxRecDepth 100000 in
/-- C1 witness: on `"a [[b]] c"` with the dictionary `a → [[A]]` the
hypotheses hold and the protected span `[[b]]` is preserved. -/
theorem c1_span_preservation_witness :
    ∃ outs, outs.length = (protectedSpans "a [[b]] c".toList).length + 1 ∧
      apply_wikiterms "a [[b]] c".toList [("a".toList, "[[A]]".toList)] =
        interleave outs (protectedSpans "a [[b]] c".toList) :=
  (c1_span_preservation "a [[b]] c".toList [("a".toList, "[[A]]".toList)]
    [("a".toList, "[[A]]".toList)] (by decide) (by decide) (by decide) (by decide)).2.2

/-! ## Claim C7 -/

set_option maxRecDepth 100000 in
/-- C7 counterexample: the claim fails as stated. With terms
`[("a", "zbz"), ("b", "c")]` no replacement value equals a pattern of the
list, yet a second application rewrites the `b` introduced by the first
one: `apply_wikiterms "a" = "zbz"` but applying again gives `"zcz"`. -/
theorem c7_counterexample :
    apply_wikiterms "a".toList
      [("a".toList, "zbz".toList), ("b".toList, "c".toList)] = "zbz".toList ∧
    apply_wikiterms (apply_wikiterms "a".toList
        [("a".toList, "zbz".toList), ("b".toList, "c".toList)])
      [("a".toList, "zbz".toList), ("b".toList, "c".toList)] = "zcz".toList ∧
    "zcz".toList ≠ "zbz".toList ∧
    (∀ tr ∈ [("a".toList, "zbz".toList), ("b".toList, "c".toList)],
      tr.2 ≠ "a".toList ∧ tr.2 ≠ "b".toList) := by
  decide

/-- C7 (corrected): applying `apply_wikiterms` twice yields the same result
as applying it once provided the first output contains no `\u0007` and no
`WIKITERM_TOKEN` text, and no nonempty pattern of the list occurs in the
placeholder-protected working copy of that output (rather than merely no
replacement value being a pattern). -/
theorem c7_second_application_noop (text : Str) (terms : List (Str × Str))
    (h7 : '\x07' ∉ apply_wikiterms text terms)
    (hmagic : containsS (apply_wikiterms text terms) "WIKITERM_TOKEN".toList = false)
    (hnoocc : ∀ tr ∈ terms, tr.1 ≠ [] →
      containsS (protect_wiki_segments (apply_wikiterms text terms)).1 tr.1 = false) :
    apply_wikiterms (apply_wikiterms text terms) terms = apply_wikiterms text terms := by
  refine apply_wikiterms_fixpoint _ _ h7 ?_ hnoocc
  intro h
  rw [← containsS_iff] at h
  rw [hmagic] at h
  exact Bool.false_ne_true h

set_option maxRecDepth 100000 in
/-- C7 witness: the spec scenario. `{"Any%": "[[Any%]]", "100%": "[[100%]]"}`
on `"Any% and 100%"` gives `"[[Any%]] and [[100%]]"`, and a second
application leaves that output unchanged. -/
theorem c7_second_application_noop_witness :
    apply_wikiterms "Any% and 100%".toList
      [("Any%".toList, "[[Any%]]".toList), ("100%".toList, "[[100%]]".toList)] =
      "[[Any%]] and [[100%]]".toList ∧
    apply_wikiterms (apply_wikiterms "Any% and 100%".toList
        [("Any%".toList, "[[Any%]]".toList), ("100%".toList, "[[100%]]".toList)])
      [("Any%".toList, "[[Any%]]".toList), ("100%".toList, "[[100%]]".toList)] =
      apply_wikiterms "Any% and 100%".toList
        [("Any%".toList, "[[Any%]]".toList), ("100%".toList, "[[100%]]".toList)] :=
  ⟨by decide, c7_second_application_noop "Any% and 100%".toList
    [("Any%".toList, "[[Any%]]".toList), ("100%".toList, "[[100%]]".toList)]
    (by decide) (by decide) (by decide)⟩

end SrWikiSync
